import Mathlib

set_option maxRecDepth 100000

/-!
Verification of the `personna` repository's core components against its
specification.  Python strings are modelled as `List Char`; machine integers
as `Nat`/`Int` with explicit reductions modulo `2 ^ 32` (MD5 words) where the
algorithm depends on overflow; fallible Python code (code that may raise) is
modelled with `Except`.
-/

namespace Personna

/-- Characters of a Python string, modelled as a list of `Char`. -/
abbrev Str := List Char

/-! ## MD5 (model of `hashlib.md5`, RFC 1321)

`VectorStore._permalink_to_uuid` and `VectorStore._username_to_uuid` call
`hashlib.md5(key.encode()).digest()`.  We model the external `hashlib.md5`
by the MD5 algorithm itself, over byte lists (`List Nat`, entries `< 256`). -/

namespace MD5

/-- `2 ^ 32`, the MD5 word modulus. -/
def w32 : Nat := 4294967296

/-- Addition modulo `2 ^ 32`. -/
def add32 (a b : Nat) : Nat := (a + b) % w32

/-- Bitwise complement of a 32-bit word (xor with the all-ones mask). -/
def not32 (a : Nat) : Nat := Nat.xor a (w32 - 1)

/-- Left-rotation of a 32-bit word by `s` places. -/
def rotl32 (x s : Nat) : Nat := ((x <<< s) ||| (x >>> (32 - s))) % w32

/-- The 64 MD5 sine-derived constants `K[i] = floor(2^32 * |sin(i+1)|)`. -/
def K : List Nat :=
  [0xd76aa478, 0xe8c7b756, 0x242070db, 0xc1bdceee,
   0xf57c0faf, 0x4787c62a, 0xa8304613, 0xfd469501,
   0x698098d8, 0x8b44f7af, 0xffff5bb1, 0x895cd7be,
   0x6b901122, 0xfd987193, 0xa679438e, 0x49b40821,
   0xf61e2562, 0xc040b340, 0x265e5a51, 0xe9b6c7aa,
   0xd62f105d, 0x02441453, 0xd8a1e681, 0xe7d3fbc8,
   0x21e1cde6, 0xc33707d6, 0xf4d50d87, 0x455a14ed,
   0xa9e3e905, 0xfcefa3f8, 0x676f02d9, 0x8d2a4c8a,
   0xfffa3942, 0x8771f681, 0x6d9d6122, 0xfde5380c,
   0xa4beea44, 0x4bdecfa9, 0xf6bb4b60, 0xbebfbc70,
   0x289b7ec6, 0xeaa127fa, 0xd4ef3085, 0x04881d05,
   0xd9d4d039, 0xe6db99e5, 0x1fa27cf8, 0xc4ac5665,
   0xf4292244, 0x432aff97, 0xab9423a7, 0xfc93a039,
   0x655b59c3, 0x8f0ccc92, 0xffeff47d, 0x85845dd1,
   0x6fa87e4f, 0xfe2ce6e0, 0xa3014314, 0x4e0811a1,
   0xf7537e82, 0xbd3af235, 0x2ad7d2bb, 0xeb86d391]

/-- The 64 per-round left-rotation amounts. -/
def S : List Nat :=
  [7, 12, 17, 22, 7, 12, 17, 22, 7, 12, 17, 22, 7, 12, 17, 22,
   5, 9, 14, 20, 5, 9, 14, 20, 5, 9, 14, 20, 5, 9, 14, 20,
   4, 11, 16, 23, 4, 11, 16, 23, 4, 11, 16, 23, 4, 11, 16, 23,
   6, 10, 15, 21, 6, 10, 15, 21, 6, 10, 15, 21, 6, 10, 15, 21]

/-- Round function: F, G, H, I depending on the round index. -/
def roundFn (i b c d : Nat) : Nat :=
  if i < 16 then (b &&& c) ||| (not32 b &&& d)
  else if i < 32 then (d &&& b) ||| (not32 d &&& c)
  else if i < 48 then Nat.xor b (Nat.xor c d)
  else Nat.xor c (b ||| not32 d)

/-- Message-word index used in round `i`. -/
def gIdx (i : Nat) : Nat :=
  if i < 16 then i
  else if i < 32 then (5 * i + 1) % 16
  else if i < 48 then (3 * i + 5) % 16
  else (7 * i) % 16

/-- One MD5 round: state `(a, b, c, d)` updated with message words `M`. -/
def stepRound (M : List Nat) (st : Nat × Nat × Nat × Nat) (i : Nat) :
    Nat × Nat × Nat × Nat :=
  let a := st.1
  let b := st.2.1
  let c := st.2.2.1
  let d := st.2.2.2
  let f := (roundFn i b c d + a + K.getD i 0 + M.getD (gIdx i) 0) % w32
  (d, add32 b (rotl32 f (S.getD i 0)), b, c)

/-- Little-endian packing of four bytes into one 32-bit word. -/
def leWord (b0 b1 b2 b3 : Nat) : Nat :=
  b0 + b1 * 256 + b2 * 65536 + b3 * 16777216

/-- Split a byte list into little-endian 32-bit words. -/
def wordsOfBytes : List Nat → List Nat
  | b0 :: b1 :: b2 :: b3 :: rest => leWord b0 b1 b2 b3 :: wordsOfBytes rest
  | _ => []

/-- The four little-endian bytes of a 32-bit word. -/
def wordLEBytes (w : Nat) : List Nat :=
  [w % 256, w / 256 % 256, w / 65536 % 256, w / 16777216 % 256]

/-- Process one 64-byte chunk, updating the running state. -/
def processChunk (st : Nat × Nat × Nat × Nat) (chunk : List Nat) :
    Nat × Nat × Nat × Nat :=
  let M := wordsOfBytes chunk
  let r := (List.range 64).foldl (stepRound M) st
  (add32 st.1 r.1, add32 st.2.1 r.2.1, add32 st.2.2.1 r.2.2.1,
   add32 st.2.2.2 r.2.2.2)

/-- MD5 padding: append `0x80`, zeros to 56 mod 64, then the 64-bit
little-endian bit length. -/
def padMessage (msg : List Nat) : List Nat :=
  let z := (119 - msg.length % 64) % 64
  let bitLen := (msg.length * 8) % (2 ^ 64)
  msg ++ [0x80] ++ List.replicate z 0 ++
    (List.range 8).map (fun i => bitLen / 256 ^ i % 256)

/-- Fuelled worker for `chunks64`; `fuel = l.length` always suffices since
each step consumes 64 elements and needs one unit of fuel. -/
def chunks64Go : Nat → List Nat → List (List Nat)
  | 0, _ => []
  | _, [] => []
  | fuel + 1, l => l.take 64 :: chunks64Go fuel (l.drop 64)

/-- Split a list into consecutive 64-element chunks. -/
def chunks64 (l : List Nat) : List (List Nat) := chunks64Go l.length l

/-- The MD5 digest (16 bytes) of a byte message. -/
def md5 (msg : List Nat) : List Nat :=
  let st := (chunks64 (padMessage msg)).foldl processChunk
    (0x67452301, 0xefcdab89, 0x98badcfe, 0x10325476)
  wordLEBytes st.1 ++ wordLEBytes st.2.1 ++ wordLEBytes st.2.2.1 ++
    wordLEBytes st.2.2.2

end MD5

/-- UTF-8 encoding of one character (model of Python `str.encode()`). -/
def utf8Char (c : Char) : List Nat :=
  let n := c.toNat
  if n < 0x80 then [n]
  else if n < 0x800 then [0xC0 + n / 64, 0x80 + n % 64]
  else if n < 0x10000 then
    [0xE0 + n / 4096, 0x80 + n / 64 % 64, 0x80 + n % 64]
  else
    [0xF0 + n / 262144, 0x80 + n / 4096 % 64, 0x80 + n / 64 % 64,
     0x80 + n % 64]

/-- UTF-8 encoding of a string. -/
def utf8Encode (s : Str) : List Nat := (s.map utf8Char).flatten

/-- Lower-case hex digit for `n < 16`. -/
def hexDigitChar (n : Nat) : Char :=
  if n < 10 then Char.ofNat (48 + n) else Char.ofNat (87 + n)

/-- Two lower-case hex digits of a byte. -/
def byteHex (b : Nat) : Str := [hexDigitChar (b / 16), hexDigitChar (b % 16)]

/-- `str(uuid.UUID(bytes=bs))`: the 32 hex digits of the 16 bytes, grouped
8-4-4-4-12 with dashes. -/
def uuidString (bs : List Nat) : Str :=
  let hx := (bs.map byteHex).flatten
  hx.take 8 ++ ['-'] ++ (hx.drop 8).take 4 ++ ['-'] ++
    (hx.drop 12).take 4 ++ ['-'] ++ (hx.drop 16).take 4 ++ ['-'] ++
    hx.drop 20

/-- Embeds `VectorStore._permalink_to_uuid`:
`str(uuid.UUID(bytes=hashlib.md5(permalink.encode()).digest()))`. -/
def permalinkToUuid (permalink : Str) : Str :=
  uuidString (MD5.md5 (utf8Encode permalink))

/-- Embeds `VectorStore._username_to_uuid`:
`str(uuid.UUID(bytes=hashlib.md5(username.encode()).digest()))`. -/
def usernameToUuid (username : Str) : Str :=
  uuidString (MD5.md5 (utf8Encode username))

/-- Value of a lower-case hex digit character. -/
def hexVal (c : Char) : Nat :=
  if c.toNat ≥ 97 then c.toNat - 87 else c.toNat - 48

/-- Decode consecutive hex-digit pairs back into bytes. -/
def unhexPairs : Str → List Nat
  | h :: l :: rest => (hexVal h * 16 + hexVal l) :: unhexPairs rest
  | _ => []

/-- Recover the byte list from a UUID string by dropping dashes and decoding
hex pairs. -/
def uuidParse (s : Str) : List Nat := unhexPairs (s.filter (· ≠ '-'))

theorem hexVal_hexDigitChar : ∀ n, n < 16 → hexVal (hexDigitChar n) = n := by
  decide

theorem hexDigitChar_ne_dash : ∀ n, n < 16 → hexDigitChar n ≠ '-' := by
  decide

theorem byteHex_filter {b : Nat} (hb : b < 256) :
    (byteHex b).filter (· ≠ '-') = byteHex b := by
  have h1 : b / 16 < 16 := by omega
  have h2 : b % 16 < 16 := by omega
  simp [byteHex, hexDigitChar_ne_dash _ h1, hexDigitChar_ne_dash _ h2]

theorem unhexPairs_byteHex {bs : List Nat} (hb : ∀ b ∈ bs, b < 256) :
    unhexPairs ((bs.map byteHex).flatten) = bs := by
  induction bs with
  | nil => rfl
  | cons b rest ih =>
    have hblt : b < 256 := hb b (by simp)
    have h1 : b / 16 < 16 := by omega
    have h2 : b % 16 < 16 := by omega
    simp only [List.map_cons, List.flatten_cons, byteHex, List.cons_append,
      List.nil_append]
    rw [unhexPairs]
    rw [hexVal_hexDigitChar _ h1, hexVal_hexDigitChar _ h2]
    have : b / 16 * 16 + b % 16 = b := by omega
    rw [this, ih (fun x hx => hb x (by simp [hx]))]

theorem uuidParse_uuidString {bs : List Nat} (hb : ∀ b ∈ bs, b < 256) :
    uuidParse (uuidString bs) = bs := by
  have hhx : ∀ c ∈ (bs.map byteHex).flatten, c ≠ '-' := by
    intro c hc
    rw [List.mem_flatten] at hc
    obtain ⟨l, hl, hcl⟩ := hc
    rw [List.mem_map] at hl
    obtain ⟨b, hbmem, rfl⟩ := hl
    have := byteHex_filter (hb b hbmem)
    intro hdash
    have := (List.filter_eq_self.mp this) c hcl
    simp [hdash] at this
  set hx := (bs.map byteHex).flatten with hhxdef
  have hpiece : ∀ l : Str, (∀ c ∈ l, c ∈ hx) → l.filter (· ≠ '-') = l := by
    intro l hl
    apply List.filter_eq_self.mpr
    intro a ha
    simpa using hhx a (hl a ha)
  unfold uuidParse uuidString
  rw [← hhxdef]
  simp only [List.filter_append]
  rw [hpiece _ (fun c hc => List.mem_of_mem_take hc),
      hpiece _ (fun c hc => List.mem_of_mem_drop (List.mem_of_mem_take hc)),
      hpiece _ (fun c hc => List.mem_of_mem_drop (List.mem_of_mem_take hc)),
      hpiece _ (fun c hc => List.mem_of_mem_drop (List.mem_of_mem_take hc)),
      hpiece _ (fun c hc => List.mem_of_mem_drop hc)]
  have hdash : List.filter (fun c => decide (c ≠ '-')) ['-'] = [] := by decide
  rw [hdash]
  simp only [List.nil_append, List.append_nil, List.append_assoc]
  have glue : ∀ (m n : Nat), (hx.drop m).take n ++ hx.drop (m + n) = hx.drop m := by
    intro m n
    have h1 : (hx.drop m).drop n = hx.drop (m + n) := by
      rw [List.drop_drop, Nat.add_comm]
    rw [← h1, List.take_append_drop]
  have g1 : (hx.drop 16).take 4 ++ hx.drop 20 = hx.drop 16 := by
    have := glue 16 4
    norm_num at this
    exact this
  have g2 : (hx.drop 12).take 4 ++ hx.drop 16 = hx.drop 12 := by
    have := glue 12 4
    norm_num at this
    exact this
  have g3 : (hx.drop 8).take 4 ++ hx.drop 12 = hx.drop 8 := by
    have := glue 8 4
    norm_num at this
    exact this
  rw [g1, g2, g3, List.take_append_drop]
  exact unhexPairs_byteHex hb

theorem md5_byte_lt (msg : List Nat) : ∀ b ∈ MD5.md5 msg, b < 256 := by
  intro b hb
  simp only [MD5.md5, MD5.wordLEBytes, List.mem_append, List.mem_cons,
    List.not_mem_nil, or_false] at hb
  omega

theorem uuidString_injOn {b1 b2 : List Nat} (h1 : ∀ b ∈ b1, b < 256)
    (h2 : ∀ b ∈ b2, b < 256) (heq : uuidString b1 = uuidString b2) :
    b1 = b2 := by
  rw [← uuidParse_uuidString h1, ← uuidParse_uuidString h2, heq]

/-- Sanity check: MD5 of the empty message (RFC 1321 test vector). -/
theorem md5_empty_vector :
    MD5.md5 [] =
      [0xd4, 0x1d, 0x8c, 0xd9, 0x8f, 0x00, 0xb2, 0x04,
       0xe9, 0x80, 0x09, 0x98, 0xec, 0xf8, 0x42, 0x7e] := by decide

/-- Sanity check: MD5 of "abc" (RFC 1321 test vector). -/
theorem md5_abc_vector :
    MD5.md5 (utf8Encode ("abc".toList)) =
      [0x90, 0x01, 0x50, 0x98, 0x3c, 0xd2, 0x4f, 0xb0,
       0xd6, 0x96, 0x3f, 0x7d, 0x28, 0xe1, 0x7f, 0x72] := by decide

/-- C1: for both identifier variants (permalink-keyed for comments,
username-keyed for personas), identifier derivation is a pure deterministic
function of the key: calling it twice on the same key yields the same output,
the output equals the MD5 digest of the UTF-8 encoded key formatted as a UUID
string, and keys with different MD5 digests (all keys, except for
hash collisions) yield different outputs. -/
theorem C1_identifier_derivation (k k' : Str)
    (hne : MD5.md5 (utf8Encode k) ≠ MD5.md5 (utf8Encode k')) :
    permalinkToUuid k = permalinkToUuid k ∧
    usernameToUuid k = usernameToUuid k ∧
    permalinkToUuid k = uuidString (MD5.md5 (utf8Encode k)) ∧
    usernameToUuid k = uuidString (MD5.md5 (utf8Encode k)) ∧
    permalinkToUuid k ≠ permalinkToUuid k' ∧
    usernameToUuid k ≠ usernameToUuid k' := by
  refine ⟨rfl, rfl, rfl, rfl, ?_, ?_⟩ <;>
    exact fun h => hne (uuidString_injOn (md5_byte_lt _) (md5_byte_lt _) h)

/-- Witness for C1 at the concrete keys "a" and "b". -/
theorem C1_identifier_derivation_witness :
    MD5.md5 (utf8Encode ("a".toList)) ≠ MD5.md5 (utf8Encode ("b".toList)) ∧
    permalinkToUuid ("a".toList) ≠ permalinkToUuid ("b".toList) :=
  ⟨by decide,
   (C1_identifier_derivation ("a".toList) ("b".toList) (by decide)).2.2.2.2.1⟩

/-! ## Sentiment analyzer: configuration and batching driver
(`src/sentiment_analyzer.py`) -/

/-- The `ollama` section of the configuration dictionary (optional keys,
read with `.get` and a default by `SentimentAnalyzer.__init__`). -/
structure OllamaConfig where
  model : Option Str := none
  temperature : Option ℚ := none
deriving DecidableEq

/-- The `sentiment` section of the configuration dictionary. -/
structure SentimentConfig where
  batch_size : Option Int := none
deriving DecidableEq

/-- The configuration dictionary passed to `SentimentAnalyzer.__init__`. -/
structure Config where
  ollama : Option OllamaConfig := none
  sentiment : Option SentimentConfig := none
deriving DecidableEq

/-- The constructed sentiment analyzer state. -/
structure SentimentAnalyzer where
  model : Str
  temperature : ℚ
  batch_size : Int
deriving DecidableEq

/-- `Except.ok` test. -/
def exceptIsOk : Except ε α → Bool
  | .ok _ => true
  | .error _ => false

/-- Embeds `SentimentAnalyzer.__init__`: reads the `ollama` and `sentiment`
sections with their defaults (`qwen3:8b`, temperature 0, batch size 20), then
validates `1 <= batch_size <= 100`, raising `ValueError` (modelled as
`Except.error`) otherwise. -/
def SentimentAnalyzer.init (config : Config) : Except Str SentimentAnalyzer :=
  let ollamaConfig := config.ollama.getD {}
  let sentimentConfig := config.sentiment.getD {}
  let model := ollamaConfig.model.getD ("qwen3:8b".toList)
  let temperature := ollamaConfig.temperature.getD 0
  let batchSize := sentimentConfig.batch_size.getD 20
  if ¬ (1 ≤ batchSize ∧ batchSize ≤ 100) then
    .error (("batch_size must be between 1 and 100, got ".toList) ++
      (toString batchSize).toList)
  else
    .ok { model := model, temperature := temperature, batch_size := batchSize }

/-- A configuration whose `sentiment.batch_size` key is `bs`. -/
def sentCfg (bs : Int) : Config :=
  { ollama := none, sentiment := some { batch_size := some bs } }

/-- A comment dict submitted to the sentiment protocol
(keys `id`, `author`, `body`). -/
structure BatchComment where
  id : Str
  author : Str
  body : Str
deriving DecidableEq

/-- Result of sentiment analysis for a single comment (dataclass
`SentimentResult`).  Python's `float` score is modelled as `ℚ`; no claim
depends on floating-point rounding. -/
structure SentimentResult where
  comment_id : Str
  username : Str
  score : ℚ
  rationale : Str
deriving DecidableEq

/-- Fuelled worker for `analyzeAll`; one unit of fuel per loop iteration,
`fuel = comments.length` suffices whenever `1 ≤ B`. -/
def analyzeAllGo (batchFn : List BatchComment → List SentimentResult)
    (B : Nat) : Nat → List BatchComment → List SentimentResult
  | 0, _ => []
  | _, [] => []
  | fuel + 1, comments =>
    batchFn (comments.take B) ++ analyzeAllGo batchFn B fuel (comments.drop B)

/-- Embeds `SentimentAnalyzer.analyze_all`: slices
`comments[i : i + batch_size]` for `i = 0, B, 2B, ...` and concatenates the
per-batch results in order.  The per-batch LLM call `analyze_batch`
(which closes over the post title and body) is abstracted as `batchFn`;
`B ≥ 1` is guaranteed at construction time by `SentimentAnalyzer.init`. -/
def analyzeAll (batchFn : List BatchComment → List SentimentResult)
    (B : Nat) (comments : List BatchComment) : List SentimentResult :=
  analyzeAllGo batchFn B comments.length comments

/-- Fuelled worker for `batches`. -/
def batchesGo (B : Nat) : Nat → List BatchComment → List (List BatchComment)
  | 0, _ => []
  | _, [] => []
  | fuel + 1, comments => comments.take B :: batchesGo B fuel (comments.drop B)

/-- The successive slices `comments[i : i + B]` taken by `analyze_all`. -/
def batches (B : Nat) (comments : List BatchComment) :
    List (List BatchComment) :=
  batchesGo B comments.length comments

/-! ## Vector store existence probes (`src/vector_store.py`) -/

/-- A stored Qdrant point, reduced to the fields the existence probes
consult: the point id and the `username` payload field. -/
structure StoredPoint where
  id : Str
  username : Str
deriving DecidableEq

/-- In-memory model of the two Qdrant collections. -/
structure QdrantDB where
  comments : List StoredPoint
  personas : List StoredPoint
deriving DecidableEq

/-- Model of `client.scroll(comments_collection, filter username == u,
limit = n)`: the stored points whose `username` payload equals `u`,
truncated to `n`. -/
def scrollByUsername (db : QdrantDB) (u : Str) (n : Nat) : List StoredPoint :=
  (db.comments.filter (fun p => p.username == u)).take n

/-- Model of `client.retrieve(personas_collection, ids)`: the stored points
whose id occurs in `ids`. -/
def retrieveByIds (db : QdrantDB) (ids : List Str) : List StoredPoint :=
  db.personas.filter (fun p => decide (p.id ∈ ids))

/-- Embeds `VectorStore.user_has_comments`.  The backend call may raise:
`backend` is `.error` when it does (the `except Exception: return False`
branch), `.ok db` when the backend answers from state `db`. -/
def userHasComments (backend : Except Unit QdrantDB) (username : Str) : Bool :=
  match backend with
  | .error _ => false
  | .ok db => (scrollByUsername db username 1).length > 0

/-- Embeds `VectorStore.user_has_persona`: direct retrieval by the
deterministic username-derived id, `False` on any backend error. -/
def userHasPersona (backend : Except Unit QdrantDB) (username : Str) : Bool :=
  match backend with
  | .error _ => false
  | .ok db => (retrieveByIds db [usernameToUuid username]).length > 0

/-! ## Persona markdown parser (`parse_persona_file`) -/

/-- Python regex `\w` (ASCII range, as used for subreddit and user names). -/
def isWordChar (c : Char) : Bool := c.isAlphanum || c == '_'

/-- Python `\s` white-space class (ASCII range). -/
def pyIsSpace (c : Char) : Bool :=
  c == ' ' || c == '\t' || c == '\n' || c == '\r' || c == '\x0b' || c == '\x0c'

/-- `re.search(r"# User Persona: u/(\w+)", content)`: leftmost occurrence of
the literal followed by at least one word character; captures the maximal
word-character run. -/
def searchUserPersona : Str → Option Str
  | [] => none
  | s@(_ :: rest) =>
    let lit := "# User Persona: u/".toList
    if lit.isPrefixOf s then
      let run := (s.drop lit.length).takeWhile isWordChar
      if run.isEmpty then searchUserPersona rest else some run
    else searchUserPersona rest

/-- `re.search(r"\*\*([^*]+)\*\* [–-] ", content)`: leftmost `**`, a
non-empty maximal run of non-`*` characters, then `** `, an en-dash or
hyphen, and a space. -/
def searchArchetype : Str → Option Str
  | [] => none
  | s@(_ :: rest) =>
    if ("**".toList).isPrefixOf s then
      let after := s.drop 2
      let run := after.takeWhile (fun c => c != '*')
      let tail2 := after.drop run.length
      if (¬ run.isEmpty) ∧
          (tail2.take 5 = "** – ".toList ∨ tail2.take 5 = "** - ".toList) then
        some run
      else searchArchetype rest
    else searchArchetype rest

/-- Backtracking of `\s*` before `[^\n]+`: starting from the longest
white-space run (`k` characters), retry with shorter runs until the next
character exists and is not a newline; capture through the line end. -/
def macCaptureGo (after : Str) : Nat → Option Str
  | 0 =>
    match after with
    | c :: _ =>
      if c == '\n' then none else some (after.takeWhile (fun c => c != '\n'))
    | [] => none
  | k + 1 =>
    match after.drop (k + 1) with
    | c :: _ =>
      if c == '\n' then macCaptureGo after k
      else some ((after.drop (k + 1)).takeWhile (fun c => c != '\n'))
    | [] => macCaptureGo after k

/-- `re.search(r"\*\*Most Active Communities:\*\*\s*([^\n]+)", content)`. -/
def searchMAC : Str → Option Str
  | [] => none
  | s@(_ :: rest) =>
    let lit := "**Most Active Communities:**".toList
    if lit.isPrefixOf s then
      let after := s.drop lit.length
      match macCaptureGo after (after.takeWhile pyIsSpace).length with
      | some cap => some cap
      | none => searchMAC rest
    else searchMAC rest

/-- Fuelled worker for `re.findall(r"r/(\w+)", line)`: non-overlapping
leftmost matches, each capturing a maximal word run after `r/`. -/
def findallRSlashGo : Nat → Str → List Str
  | 0, _ => []
  | _, [] => []
  | fuel + 1, s@(_ :: rest) =>
    if ("r/".toList).isPrefixOf s then
      let run := (s.drop 2).takeWhile isWordChar
      if run.isEmpty then findallRSlashGo fuel rest
      else run :: findallRSlashGo fuel (s.drop (2 + run.length))
    else findallRSlashGo fuel rest

/-- Result of `parse_persona_file`. -/
structure Persona where
  username : Str
  archetype : Str
  top_subreddits : List Str
  persona_text : Str
deriving DecidableEq

/-- Embeds `parse_persona_file`: best-effort regex extraction with empty
defaults; the entire document is retained as `persona_text`. -/
def parsePersonaFile (content : Str) : Persona :=
  { username := (searchUserPersona content).getD []
    archetype := (searchArchetype content).getD []
    top_subreddits :=
      match searchMAC content with
      | some line => findallRSlashGo line.length line
      | none => []
    persona_text := content }

/-- C5: constructing the sentiment analyzer with a configured batch size
outside 1..100 (in particular 0 or 101) raises a configuration error at
construction time; any batch size in range (in particular 1 and 100)
succeeds. -/
theorem C5_batch_size_bounds (bs : Int) :
    (exceptIsOk (SentimentAnalyzer.init (sentCfg bs)) = true ↔
      (1 ≤ bs ∧ bs ≤ 100)) ∧
    exceptIsOk (SentimentAnalyzer.init (sentCfg 0)) = false ∧
    exceptIsOk (SentimentAnalyzer.init (sentCfg 101)) = false ∧
    exceptIsOk (SentimentAnalyzer.init (sentCfg 1)) = true ∧
    exceptIsOk (SentimentAnalyzer.init (sentCfg 100)) = true := by
  refine ⟨?_, by decide, by decide, by decide, by decide⟩
  by_cases h : 1 ≤ bs ∧ bs ≤ 100
  · simp [SentimentAnalyzer.init, sentCfg, exceptIsOk, h]
  · simp [SentimentAnalyzer.init, sentCfg, exceptIsOk, h]

/-- Witness for C5 at the in-range batch size 50. -/
theorem C5_batch_size_bounds_witness :
    exceptIsOk (SentimentAnalyzer.init (sentCfg 50)) = true :=
  (C5_batch_size_bounds 50).1.mpr (by decide)

/-- C9: both existence probes return `false` (rather than propagating an
exception) whenever the backend call raises, and return `true` exactly when
at least one matching stored record exists. -/
theorem C9_existence_probes (u : Str) :
    (∀ e, userHasComments (.error e) u = false) ∧
    (∀ e, userHasPersona (.error e) u = false) ∧
    (∀ db, userHasComments (.ok db) u = true ↔
      ∃ p ∈ db.comments, p.username = u) ∧
    (∀ db, userHasPersona (.ok db) u = true ↔
      ∃ p ∈ db.personas, p.id = usernameToUuid u) := by
  refine ⟨fun _ => rfl, fun _ => rfl, fun db => ?_, fun db => ?_⟩
  · cases hf : db.comments.filter (fun p => p.username == u) with
    | nil =>
      simp only [userHasComments, scrollByUsername, hf, List.take_nil,
        List.length_nil, gt_iff_lt, Nat.lt_irrefl, decide_False,
        Bool.false_eq_true, false_iff, not_exists, not_and]
      intro p hp hu
      have hmem : p ∈ db.comments.filter (fun p => p.username == u) :=
        List.mem_filter.mpr ⟨hp, by simp [hu]⟩
      rw [hf] at hmem
      simp at hmem
    | cons q qs =>
      simp only [userHasComments, scrollByUsername, hf]
      have hq : q ∈ db.comments.filter (fun p => p.username == u) := by
        rw [hf]; exact List.mem_cons_self q qs
      refine iff_of_true (by simp) ?_
      exact ⟨q, List.mem_of_mem_filter hq, by simpa using List.of_mem_filter hq⟩
  · cases hf : db.personas.filter
        (fun p => decide (p.id ∈ [usernameToUuid u])) with
    | nil =>
      simp only [userHasPersona, retrieveByIds, hf, List.length_nil,
        gt_iff_lt, Nat.lt_irrefl, decide_False, Bool.false_eq_true,
        false_iff, not_exists, not_and]
      intro p hp hid
      have hmem : p ∈ db.personas.filter
          (fun p => decide (p.id ∈ [usernameToUuid u])) :=
        List.mem_filter.mpr ⟨hp, by simp [hid]⟩
      rw [hf] at hmem
      simp at hmem
    | cons q qs =>
      simp only [userHasPersona, retrieveByIds, hf]
      have hq : q ∈ db.personas.filter
          (fun p => decide (p.id ∈ [usernameToUuid u])) := by
        rw [hf]; exact List.mem_cons_self q qs
      refine iff_of_true (by simp) ?_
      refine ⟨q, List.mem_of_mem_filter hq, ?_⟩
      have := List.of_mem_filter hq
      simpa using this

/-- If the `**Most Active Communities:**` label never occurs in the document,
the corresponding search finds nothing. -/
theorem searchMAC_eq_none {content : Str}
    (h : ¬ ("**Most Active Communities:**".toList <:+: content)) :
    searchMAC content = none := by
  induction content with
  | nil => rfl
  | cons c rest ih =>
    by_cases hp : ("**Most Active Communities:**".toList).isPrefixOf (c :: rest)
    · exact absurd ((List.isPrefixOf_iff_prefix.mp hp).isInfix) h
    · rw [searchMAC]
      simp only [hp, if_false, Bool.false_eq_true]
      exact ih (fun hinf => h (List.infix_cons hinf))

/-- C8: the persona parser never raises: `persona_text` always equals the
whole original document; a document in which the `**Most Active
Communities:**` label never occurs yields an empty top-subreddits sequence;
and each extraction that finds no match defaults to the empty value. -/
theorem C8_persona_parse_defaults (content : Str) :
    (parsePersonaFile content).persona_text = content ∧
    (¬ ("**Most Active Communities:**".toList <:+: content) →
      (parsePersonaFile content).top_subreddits = []) ∧
    (searchUserPersona content = none →
      (parsePersonaFile content).username = []) ∧
    (searchArchetype content = none →
      (parsePersonaFile content).archetype = []) ∧
    (searchMAC content = none →
      (parsePersonaFile content).top_subreddits = []) := by
  refine ⟨rfl, fun h => ?_, fun h => by simp [parsePersonaFile, h],
    fun h => by simp [parsePersonaFile, h],
    fun h => by simp [parsePersonaFile, h]⟩
  simp [parsePersonaFile, searchMAC_eq_none h]

/-- Witness for C8 on the document "hello" (no extractable field). -/
theorem C8_persona_parse_defaults_witness :
    (¬ ("**Most Active Communities:**".toList <:+: ("hello".toList))) ∧
    (parsePersonaFile ("hello".toList)).top_subreddits = [] ∧
    (parsePersonaFile ("hello".toList)).persona_text = "hello".toList :=
  ⟨by decide, (C8_persona_parse_defaults ("hello".toList)).2.1 (by decide),
    (C8_persona_parse_defaults ("hello".toList)).1⟩

/-- One step of the ceiling-division count: for a non-empty input, taking one
batch of `B` leaves `ceil((n - B) / B)` further batches. -/
theorem ceil_div_step {B n : Nat} (hB : 1 ≤ B) (hn : 1 ≤ n) :
    (n + B - 1) / B = (n - B + B - 1) / B + 1 := by
  rcases le_or_lt n B with h | h
  · have e1 : n + B - 1 = (n - 1) + B := by omega
    have e2 : n - B + B - 1 = B - 1 := by omega
    rw [e1, e2, Nat.add_div_right _ (by omega),
      Nat.div_eq_of_lt (show n - 1 < B by omega),
      Nat.div_eq_of_lt (show B - 1 < B by omega)]
  · have e1 : n + B - 1 = (n - 1) + B := by omega
    have e2 : n - B + B - 1 = n - 1 := by omega
    rw [e1, e2, Nat.add_div_right _ (by omega)]

/-- Joint induction on the loop fuel: the driver equals the per-batch map
concatenated; the batches form a consecutive partition; there are
`ceil(n / B)` of them, each non-empty of size at most `B`, all but the last
of size exactly `B`; and, whenever the per-batch oracle returns one result
per submitted id, the driver's ids are a permutation of the input ids. -/
theorem batchesGo_spec (f : List BatchComment → List SentimentResult)
    (B : Nat) (hB : 1 ≤ B) :
    ∀ (fuel : Nat) (l : List BatchComment), l.length ≤ fuel →
      analyzeAllGo f B fuel l = ((batchesGo B fuel l).map f).flatten ∧
      (batchesGo B fuel l).flatten = l ∧
      (batchesGo B fuel l).length = (l.length + B - 1) / B ∧
      (∀ b ∈ batchesGo B fuel l, b.length ≤ B ∧ b ≠ []) ∧
      (∀ b ∈ (batchesGo B fuel l).dropLast, b.length = B) ∧
      ((∀ bt, List.Perm ((f bt).map (fun r => r.comment_id))
          (bt.map (fun c => c.id))) →
        List.Perm ((analyzeAllGo f B fuel l).map (fun r => r.comment_id))
          (l.map (fun c => c.id))) := by
  intro fuel
  induction fuel with
  | zero =>
    intro l hl
    have hnil : l = [] := List.eq_nil_of_length_eq_zero (Nat.le_zero.mp hl)
    subst hnil
    refine ⟨rfl, rfl, ?_, by simp [batchesGo], by simp [batchesGo],
      fun _ => by simp [analyzeAllGo]⟩
    simp [batchesGo, Nat.div_eq_of_lt (show B - 1 < B by omega)]
  | succ fuel ih =>
    intro l hl
    cases l with
    | nil =>
      refine ⟨rfl, rfl, ?_, by simp [batchesGo], by simp [batchesGo],
        fun _ => by simp [analyzeAllGo]⟩
      simp [batchesGo, Nat.div_eq_of_lt (show B - 1 < B by omega)]
    | cons x xs =>
      have hdrop : ((x :: xs).drop B).length ≤ fuel := by
        simp only [List.length_drop, List.length_cons]
        have : xs.length + 1 ≤ fuel + 1 := hl
        omega
      obtain ⟨ih1, ih2, ih3, ih4, ih5, ih6⟩ := ih ((x :: xs).drop B) hdrop
      have hGo : batchesGo B (fuel + 1) (x :: xs) =
          (x :: xs).take B :: batchesGo B fuel ((x :: xs).drop B) := rfl
      have hAGo : analyzeAllGo f B (fuel + 1) (x :: xs) =
          f ((x :: xs).take B) ++ analyzeAllGo f B fuel ((x :: xs).drop B) :=
        rfl
      have htake_ne : (x :: xs).take B ≠ [] := by
        cases B with
        | zero => omega
        | succ k => simp [List.take_cons]
      refine ⟨?_, ?_, ?_, ?_, ?_, ?_⟩
      · rw [hAGo, hGo, ih1, List.map_cons, List.flatten_cons]
      · rw [hGo, List.flatten_cons, ih2, List.take_append_drop]
      · rw [hGo, List.length_cons, ih3, List.length_drop, List.length_cons,
          ← ceil_div_step hB (by omega)]
      · intro b hb
        rw [hGo] at hb
        rcases List.mem_cons.mp hb with hbt | hbm
        · subst hbt
          refine ⟨?_, htake_ne⟩
          rw [List.length_take]
          exact Nat.min_le_left _ _
        · exact ih4 b hbm
      · intro b hb
        rw [hGo] at hb
        cases hrest : batchesGo B fuel ((x :: xs).drop B) with
        | nil => rw [hrest] at hb; simp at hb
        | cons y ys =>
          rw [hrest] at hb
          rw [List.dropLast_cons₂] at hb
          rcases List.mem_cons.mp hb with hbt | hbm
          · subst hbt
            have hynil : y ≠ [] := (ih4 y (by rw [hrest]; simp)).2
            have hdropne : (x :: xs).drop B ≠ [] := by
              intro hcon
              rw [hcon] at hrest
              have hnil : batchesGo B fuel [] = [] := by
                cases fuel <;> rfl
              rw [hnil] at hrest
              exact List.cons_ne_nil y ys hrest.symm
            have hlen : B < (x :: xs).length := by
              by_contra hle
              push_neg at hle
              exact hdropne (List.drop_eq_nil_of_le hle)
            rw [List.length_take]
            omega
          · exact ih5 b (by rw [hrest]; exact hbm)
      · intro horacle
        rw [hAGo, List.map_append]
        have h1 := horacle ((x :: xs).take B)
        have h2 := ih6 horacle
        have := h1.append h2
        refine this.trans ?_
        rw [← List.map_append, List.take_append_drop]

/-- C3: `analyze_all` over `N` comments with batch size `B ∈ [1, 100]`
partitions the input into `ceil(N/B)` consecutive batches of size `B` (only
the last possibly shorter), invokes the batch protocol once per batch in
partition order, and concatenates the per-batch results in that order;
assuming each batch call returns one result per submitted comment id, the
output has exactly `N` results whose comment ids are a permutation of (hence
have the same id set as) the input ids. -/
theorem C3_analyze_all_batching (f : List BatchComment → List SentimentResult)
    (B : Nat) (comments : List BatchComment) (hB : 1 ≤ B) :
    analyzeAll f B comments = ((batches B comments).map f).flatten ∧
    (batches B comments).flatten = comments ∧
    (batches B comments).length = (comments.length + B - 1) / B ∧
    (∀ b ∈ batches B comments, b.length ≤ B ∧ b ≠ []) ∧
    (∀ b ∈ (batches B comments).dropLast, b.length = B) ∧
    ((∀ bt, List.Perm ((f bt).map (fun r => r.comment_id))
        (bt.map (fun c => c.id))) →
      (analyzeAll f B comments).length = comments.length ∧
      List.Perm ((analyzeAll f B comments).map (fun r => r.comment_id))
        (comments.map (fun c => c.id))) := by
  obtain ⟨h1, h2, h3, h4, h5, h6⟩ :=
    batchesGo_spec f B hB comments.length comments le_rfl
  refine ⟨h1, h2, h3, h4, h5, fun horacle => ⟨?_, h6 horacle⟩⟩
  have hperm := h6 horacle
  have := hperm.length_eq
  simpa using this

/-- A demonstration batch oracle: echoes one neutral result per comment. -/
def demoBatchFn (bt : List BatchComment) : List SentimentResult :=
  bt.map (fun c =>
    { comment_id := c.id, username := c.author, score := 0, rationale := [] })

/-- Five demonstration comments with ids c1..c5. -/
def demoComments : List BatchComment :=
  [{ id := "c1".toList, author := "u1".toList, body := "b1".toList },
   { id := "c2".toList, author := "u2".toList, body := "b2".toList },
   { id := "c3".toList, author := "u3".toList, body := "b3".toList },
   { id := "c4".toList, author := "u4".toList, body := "b4".toList },
   { id := "c5".toList, author := "u5".toList, body := "b5".toList }]

/-- Witness for C3: with batch size 2 the five demonstration comments are
split into 3 calls of sizes 2, 2, 1 (with batch size 20, one call), and the
driver returns 5 results. -/
theorem C3_analyze_all_batching_witness :
    (batches 2 demoComments).map (fun b => b.length) = [2, 2, 1] ∧
    (batches 20 demoComments).length = 1 ∧
    (analyzeAll demoBatchFn 2 demoComments).length = demoComments.length := by
  refine ⟨by decide, by decide, ?_⟩
  refine ((C3_analyze_all_batching demoBatchFn 2 demoComments
    (by decide)).2.2.2.2.2 ?_).1
  intro bt
  have : (demoBatchFn bt).map (fun r => r.comment_id) =
      bt.map (fun c => c.id) := by
    simp [demoBatchFn, List.map_map]
  rw [this]

/-! ## JSON (model of `json.loads`)

`SentimentAnalyzer._parse_response` calls the external `json.loads`; we model
it by the JSON grammar it implements (strict mode): objects, arrays, strings
with escapes, numbers (as exact rationals; Python's float rounding is not
modelled and no claim depends on it), `true`/`false`/`null`.  Python's
non-standard acceptance of `NaN`/`Infinity` literals and lone-surrogate
escapes is not modelled; no claim depends on them. -/

/-- JSON values.  Numbers are exact rationals. -/
inductive Json where
  | null
  | bool (b : Bool)
  | num (q : ℚ)
  | str (s : Str)
  | arr (items : List Json)
  | obj (pairs : List (Str × Json))

/-- JSON white-space characters. -/
def jsonWs (c : Char) : Bool := c == ' ' || c == '\t' || c == '\n' || c == '\r'

/-- Skip leading JSON white-space. -/
def skipWs (s : Str) : Str := s.dropWhile jsonWs

/-- Hex digit value (both cases), or `none`. -/
def hexv (c : Char) : Option Nat :=
  if '0' ≤ c ∧ c ≤ '9' then some (c.toNat - 48)
  else if 'a' ≤ c ∧ c ≤ 'f' then some (c.toNat - 87)
  else if 'A' ≤ c ∧ c ≤ 'F' then some (c.toNat - 55)
  else none

/-- Parse the body of a JSON string after the opening quote, returning the
content and the remainder after the closing quote.  Strict mode: unescaped
control characters below 0x20 are rejected.  Surrogate `\\u` pairs are
combined; lone surrogates (which Python would keep) are replaced by U+FFFD,
a documented model deviation no claim depends on. -/
def parseJStringGo : Nat → Str → Option (Str × Str)
  | 0, _ => none
  | _, [] => none
  | fuel + 1, c :: rest =>
    if c == '"' then some ([], rest)
    else if c == '\\' then
      match rest with
      | [] => none
      | e :: rest2 =>
        if e == 'u' then
          match rest2 with
          | h1 :: h2 :: h3 :: h4 :: rest3 => do
            let v1 ← hexv h1
            let v2 ← hexv h2
            let v3 ← hexv h3
            let v4 ← hexv h4
            let code := v1 * 4096 + v2 * 256 + v3 * 16 + v4
            if 0xD800 ≤ code ∧ code ≤ 0xDBFF then
              match rest3 with
              | '\\' :: 'u' :: g1 :: g2 :: g3 :: g4 :: rest4 => do
                let w1 ← hexv g1
                let w2 ← hexv g2
                let w3 ← hexv g3
                let w4 ← hexv g4
                let low := w1 * 4096 + w2 * 256 + w3 * 16 + w4
                if 0xDC00 ≤ low ∧ low ≤ 0xDFFF then do
                  let hi := 0x10000 + (code - 0xD800) * 1024 + (low - 0xDC00)
                  let (content, rem) ← parseJStringGo fuel rest4
                  pure (Char.ofNat hi :: content, rem)
                else do
                  let (content, rem) ← parseJStringGo fuel rest3
                  pure (Char.ofNat 0xFFFD :: content, rem)
              | _ => do
                let (content, rem) ← parseJStringGo fuel rest3
                pure (Char.ofNat 0xFFFD :: content, rem)
            else if 0xDC00 ≤ code ∧ code ≤ 0xDFFF then do
              let (content, rem) ← parseJStringGo fuel rest3
              pure (Char.ofNat 0xFFFD :: content, rem)
            else do
              let (content, rem) ← parseJStringGo fuel rest3
              pure (Char.ofNat code :: content, rem)
          | _ => none
        else do
          let ec ←
            if e == '"' then some '"'
            else if e == '\\' then some '\\'
            else if e == '/' then some '/'
            else if e == 'b' then some (Char.ofNat 8)
            else if e == 'f' then some (Char.ofNat 12)
            else if e == 'n' then some '\n'
            else if e == 'r' then some '\r'
            else if e == 't' then some '\t'
            else none
          let (content, rem) ← parseJStringGo fuel rest2
          pure (ec :: content, rem)
    else if c.toNat < 0x20 then none
    else do
      let (content, rem) ← parseJStringGo fuel rest
      pure (c :: content, rem)

/-- Numeric value of a digit string. -/
def digitsVal (ds : Str) : Nat :=
  ds.foldl (fun acc c => acc * 10 + (c.toNat - 48)) 0

/-- Parse a JSON number starting at `s` (after an optional leading minus,
passed as `neg`): `(0|[1-9]\d*)(\.\d+)?([eE][+-]?\d+)?`. -/
def parseJNumberTail (neg : Bool) (s : Str) : Option (Json × Str) :=
  match s with
  | [] => none
  | c :: _ =>
    if ¬ c.isDigit then none
    else
      let intPart := if c == '0' then ['0'] else s.takeWhile Char.isDigit
      let r1 := s.drop intPart.length
      let fracPart :=
        match r1 with
        | '.' :: r =>
          let f := r.takeWhile Char.isDigit
          if f.isEmpty then [] else f
        | _ => []
      let r2 := if fracPart.isEmpty then r1 else r1.drop (1 + fracPart.length)
      let expPair : Option (Bool × Str) :=
        match r2 with
        | 'e' :: '+' :: r => some (false, r.takeWhile Char.isDigit)
        | 'e' :: '-' :: r => some (true, r.takeWhile Char.isDigit)
        | 'e' :: r => some (false, r.takeWhile Char.isDigit)
        | 'E' :: '+' :: r => some (false, r.takeWhile Char.isDigit)
        | 'E' :: '-' :: r => some (true, r.takeWhile Char.isDigit)
        | 'E' :: r => some (false, r.takeWhile Char.isDigit)
        | _ => none
      let expPair :=
        match expPair with
        | some (_, []) => none
        | p => p
      let r3 :=
        match expPair with
        | some (eneg, ds) =>
          r2.drop ((if eneg then 2 else
            (match r2 with
             | _ :: '+' :: _ => 2
             | _ => 1)) + ds.length)
        | none => r2
      let mantissa : Int := Int.ofNat (digitsVal (intPart ++ fracPart))
      let signed : Int := if neg then -mantissa else mantissa
      let value : ℚ :=
        match expPair with
        | some (eneg, ds) =>
          if eneg then mkRat signed (10 ^ (fracPart.length + digitsVal ds))
          else mkRat (signed * (10 : Int) ^ digitsVal ds)
            (10 ^ fracPart.length)
        | none => mkRat signed (10 ^ fracPart.length)
      some (.num value, r3)

/-- Parse the items of a JSON array after the first item position (the
empty-array case is handled by the caller); `f` parses one value. -/
def parseListGo (f : Str → Option (Json × Str)) :
    Nat → Str → Option (List Json × Str)
  | 0, _ => none
  | lf + 1, s =>
    match f s with
    | none => none
    | some (v, r) =>
      match skipWs r with
      | ',' :: r3 =>
        match parseListGo f lf (skipWs r3) with
        | none => none
        | some (vs, r4) => some (v :: vs, r4)
      | ']' :: r3 => some ([v], r3)
      | _ => none

/-- Parse the members of a JSON object starting at a key position (the
empty-object case is handled by the caller); `f` parses one value. -/
def parseObjGo (f : Str → Option (Json × Str)) :
    Nat → Str → Option (List (Str × Json) × Str)
  | 0, _ => none
  | lf + 1, s =>
    match s with
    | '"' :: r =>
      match parseJStringGo (r.length + 1) r with
      | none => none
      | some (k, r1) =>
        match skipWs r1 with
        | ':' :: r2 =>
          match f (skipWs r2) with
          | none => none
          | some (v, r3) =>
            match skipWs r3 with
            | ',' :: r4 =>
              match parseObjGo f lf (skipWs r4) with
              | none => none
              | some (ps, r5) => some ((k, v) :: ps, r5)
            | '}' :: r4 => some ([(k, v)], r4)
            | _ => none
        | _ => none
    | _ => none

/-- Parse one JSON value; `fuel` bounds the nesting depth (each nested value
is reached only after consuming at least one character, so the input length
plus one always suffices). -/
def parseJValue : Nat → Str → Option (Json × Str)
  | 0, _ => none
  | fuel + 1, s =>
    match s with
    | [] => none
    | c :: rest =>
      if c == '"' then
        (parseJStringGo (rest.length + 1) rest).map
          (fun p => (.str p.1, p.2))
      else if c == '[' then
        match skipWs rest with
        | ']' :: r => some (.arr [], r)
        | r => (parseListGo (parseJValue fuel) (r.length + 1) r).map
            (fun p => (.arr p.1, p.2))
      else if c == '{' then
        match skipWs rest with
        | '}' :: r => some (.obj [], r)
        | r => (parseObjGo (parseJValue fuel) (r.length + 1) r).map
            (fun p => (.obj p.1, p.2))
      else if c == 't' then
        if ("rue".toList).isPrefixOf rest then some (.bool true, rest.drop 3)
        else none
      else if c == 'f' then
        if ("alse".toList).isPrefixOf rest then some (.bool false, rest.drop 4)
        else none
      else if c == 'n' then
        if ("ull".toList).isPrefixOf rest then some (.null, rest.drop 3)
        else none
      else if c == '-' then parseJNumberTail true rest
      else if c.isDigit then parseJNumberTail false s
      else none

/-- Model of `json.loads`: parse one value surrounded by optional
white-space; anything else is a `JSONDecodeError` (`none`). -/
def loads (s : Str) : Option Json := do
  let t := skipWs s
  let (v, r) ← parseJValue (t.length + 1) t
  if (skipWs r).isEmpty then some v else none

/-- Sanity check: `loads` on a representative document. -/
theorem loads_sanity :
    loads ("[\x7b\"id\": \"c1\", \"score\": -0.5, \"rationale\": \"ok\"\x7d, 2]".toList)
      = some (Json.arr
          [Json.obj
            [("id".toList, Json.str ("c1".toList)),
             ("score".toList, Json.num (mkRat (-1) 2)),
             ("rationale".toList, Json.str ("ok".toList))],
           Json.num (mkRat 2 1)]) := by rfl


/-! ## Response cleaning and `_parse_response` -/

/-- Python `str.strip()` (ASCII white-space; claims do not exercise the
further Unicode white-space Python would also strip). -/
def pyStrip (s : Str) : Str :=
  ((s.dropWhile pyIsSpace).reverse.dropWhile pyIsSpace).reverse

/-- Scan for the first `</think>` and return the text after it. -/
def dropThroughClose : Str → Option Str
  | [] => none
  | s@(_ :: rest) =>
    if ("</think>".toList).isPrefixOf s then some (s.drop 8)
    else dropThroughClose rest

/-- Fuelled worker for `stripThink`; each step consumes at least one
character, so `fuel = s.length` suffices. -/
def stripThinkGo : Nat → Str → Str
  | 0, _ => []
  | _, [] => []
  | fuel + 1, s@(c :: rest) =>
    if ("<think>".toList).isPrefixOf s then
      match dropThroughClose (s.drop 7) with
      | some after => stripThinkGo fuel after
      | none => c :: stripThinkGo fuel rest
    else c :: stripThinkGo fuel rest

/-- `re.sub(r"<think>.*?</think>", "", s, flags=re.DOTALL)`: remove every
non-overlapping lazily-matched think block. -/
def stripThink (s : Str) : Str := stripThinkGo s.length s

/-- `re.sub(r"^```(?:json)?\n?", "", s)`: strip an opening code fence. -/
def stripFenceOpen (s : Str) : Str :=
  if ("```".toList).isPrefixOf s then
    let r := s.drop 3
    let r2 := if ("json".toList).isPrefixOf r then r.drop 4 else r
    match r2 with
    | '\n' :: r3 => r3
    | _ => r2
  else s

/-- `re.sub(r"\n?```$", "", s)`: remove a trailing code fence, together with
the newline before it if present (`$` also matches just before a final
newline, in which case that final newline is kept). -/
def stripFenceClose (s : Str) : Str :=
  match s.reverse with
  | '\n' :: '`' :: '`' :: '`' :: rrest =>
    (match rrest with
     | '\n' :: rr2 => rr2.reverse ++ ['\n']
     | _ => rrest.reverse ++ ['\n'])
  | '`' :: '`' :: '`' :: rrest =>
    (match rrest with
     | '\n' :: rr2 => rr2.reverse
     | _ => rrest.reverse)
  | _ => s

/-- The cleaning pipeline of `_parse_response`: strip, remove think blocks,
strip again, then remove a wrapping code fence if the text starts with
one. -/
def cleanResponse (responseText : Str) : Str :=
  let cleaned := pyStrip (stripThink (pyStrip responseText))
  if ("```".toList).isPrefixOf cleaned then
    stripFenceClose (stripFenceOpen cleaned)
  else cleaned

/-- Python exceptions `_parse_response` can raise: `ValueError` from
`json.loads` (message carries the raw response), `KeyError` for a missing
`id`/`score`, and `TypeError` for items of the wrong shape (the model also
uses it for the Python coercions no claim exercises: non-string ids,
numeric-string scores, non-string rationales). -/
inductive ParseErr where
  | jsonDecode (msg : Str)
  | keyMissing (key : Str)
  | badItem
deriving DecidableEq

/-- Lookup in a Python dict literal: the last binding of a key wins. -/
def jsonObjGet (pairs : List (Str × Json)) (key : Str) : Option Json :=
  (pairs.reverse.find? (fun p => p.1 == key)).map (fun p => p.2)

/-- The `id → author` dict built by `_parse_response` (later comments with
the same id overwrite earlier ones), with the `"unknown"` default. -/
def lookupAuthor (comments : List BatchComment) (i : Str) : Option Str :=
  (comments.reverse.find? (fun c => c.id == i)).map (fun c => c.author)

/-- `float(item['score'])` on the JSON value: numbers and booleans
convert; anything else is a `TypeError` in this model. -/
def jsonScoreVal : Json → Option ℚ
  | .num q => some q
  | .bool b => some (if b then 1 else 0)
  | _ => none

/-- `item.get('rationale', '')`, restricted to string values. -/
def jsonRationale : Option Json → Option Str
  | none => some []
  | some (.str s) => some s
  | some _ => none

/-- The per-item loop of `_parse_response`: each item must be an object;
`item['id']` and `item['score']` raise `KeyError` when absent; the username
is resolved from the request-time mapping. -/
def resultsOfData (comments : List BatchComment) :
    List Json → Except ParseErr (List SentimentResult)
  | [] => .ok []
  | .obj pairs :: rest =>
    (match jsonObjGet pairs ("id".toList) with
     | none => .error (.keyMissing ("id".toList))
     | some (.str cid) =>
       match jsonObjGet pairs ("score".toList) with
       | none => .error (.keyMissing ("score".toList))
       | some sv =>
         match jsonScoreVal sv with
         | none => .error .badItem
         | some q =>
           match jsonRationale (jsonObjGet pairs ("rationale".toList)) with
           | none => .error .badItem
           | some rat =>
             match resultsOfData comments rest with
             | .error e => .error e
             | .ok rs => .ok
                 ({ comment_id := cid,
                    username :=
                      (lookupAuthor comments cid).getD ("unknown".toList),
                    score := q, rationale := rat } :: rs)
     | some _ => .error .badItem)
  | _ :: _ => .error .badItem

/-- Embeds `SentimentAnalyzer._parse_response`: clean the raw model text,
parse it strictly as JSON (a failure raises `ValueError` carrying the raw
text), then convert each array item to a `SentimentResult`.  Python's
iteration over non-list JSON values is modelled faithfully for the empty
dict and empty string (no iterations, empty result); iterating a non-empty
dict or string raises a `TypeError` on `item['id']`. -/
def parseResponse (responseText : Str) (comments : List BatchComment) :
    Except ParseErr (List SentimentResult) :=
  match loads (cleanResponse responseText) with
  | none => .error (.jsonDecode
      (("Failed to parse LLM response as JSON: ".toList) ++
        ("\nResponse: ".toList) ++ responseText))
  | some (.arr items) => resultsOfData comments items
  | some (.obj pairs) => if pairs.isEmpty then .ok [] else .error .badItem
  | some (.str s) => if s.isEmpty then .ok [] else .error .badItem
  | some _ => .error .badItem

/-- Embeds `SentimentAnalyzer.analyze_single`: wraps the comment as a
single-element batch with id `"eval"` and author `"user"`, runs the batch
protocol (the LLM reply is abstracted as `responseText`; the post title and
body only shape the prompt), and falls back to the sentinel
`{score: 0.0, rationale: "Analysis failed"}` when the result list is
empty.  Parse exceptions propagate. -/
def analyzeSingle (responseText : Str) (comment : Str) :
    Except ParseErr (ℚ × Str) :=
  let comments := [{ id := "eval".toList, author := "user".toList,
                     body := comment : BatchComment }]
  match parseResponse responseText comments with
  | .error e => .error e
  | .ok (r :: _) => .ok (r.score, r.rationale)
  | .ok [] => .ok (0, "Analysis failed".toList)

/-- Sanity check: a fenced response with a think preamble parses. -/
theorem parseResponse_sanity :
    parseResponse
      ("<think>hmm</think>```json\n[\x7b\"id\": \"c1\", \"score\": 1, \"rationale\": \"ok\"\x7d]\n```".toList)
      [{ id := "c1".toList, author := "alice".toList, body := [] }] =
    .ok [{ comment_id := "c1".toList, username := "alice".toList,
           score := mkRat 1 1, rationale := "ok".toList }] := by rfl

/-! ## Generic list lemmas used to reason about scans over concatenations -/

theorem prefix_append_cases {α : Type} {l a b : List α} (h : l <+: a ++ b) :
    l <+: a ∨ ∃ l2, l = a ++ l2 ∧ l2 <+: b := by
  rcases le_or_lt l.length a.length with hle | hlt
  · left
    have := List.prefix_iff_eq_take.mp h
    rw [List.take_append_eq_append_take] at this
    have hz : l.length - a.length = 0 := by omega
    rw [hz, List.take_zero, List.append_nil] at this
    rw [this]
    exact List.take_prefix _ _
  · right
    have heq := List.prefix_iff_eq_take.mp h
    rw [List.take_append_eq_append_take,
      List.take_of_length_le (by omega)] at heq
    exact ⟨b.take (l.length - a.length), heq, List.take_prefix _ _⟩

theorem infix_append_cases {α : Type} {l a b : List α} (h : l <:+: a ++ b) :
    l <:+: a ∨ l <:+: b ∨
      ∃ l1 l2, l = l1 ++ l2 ∧ l1 ≠ [] ∧ l2 ≠ [] ∧ l1 <:+ a ∧ l2 <+: b := by
  induction a with
  | nil => right; left; simpa using h
  | cons x a' ih =>
    rw [List.cons_append, List.infix_cons_iff] at h
    rcases h with hpre | hinf
    · rw [← List.cons_append] at hpre
      rcases prefix_append_cases hpre with h1 | ⟨l2, hl2, hl2b⟩
      · left
        exact h1.isInfix
      · by_cases hl2e : l2 = []
        · left
          rw [hl2, hl2e, List.append_nil]
        · right; right
          exact ⟨x :: a', l2, hl2, by simp, hl2e, List.suffix_rfl, hl2b⟩
    · rcases ih hinf with h1 | h2 | ⟨l1, l2, hl, h1n, h2n, hsuf, hpre⟩
      · left
        exact List.infix_cons h1
      · right; left
        exact h2
      · right; right
        exact ⟨l1, l2, hl, h1n, h2n, hsuf.trans (List.suffix_cons x a'),
          hpre⟩

theorem dropWhile_cons_false {α : Type} {p : α → Bool} {c : α} {t : List α}
    (h : p c = false) : List.dropWhile p (c :: t) = c :: t := by
  simp [List.dropWhile, h]

theorem dropWhile_fixed_head {α : Type} {p : α → Bool} {c : α} {t : List α}
    (h : List.dropWhile p (c :: t) = c :: t) : p c = false := by
  by_contra hc
  rw [Bool.not_eq_false] at hc
  rw [List.dropWhile_cons, if_pos hc] at h
  have hlen := congrArg List.length h
  have hd := (List.dropWhile_sublist (l := t) p).length_le
  simp at hlen
  omega

/-- `pyStrip` is the identity exactly when leading and trailing white-space
have already been removed. -/
theorem pyStrip_eq_self {s : Str} (h1 : s.dropWhile pyIsSpace = s)
    (h2 : s.reverse.dropWhile pyIsSpace = s.reverse) : pyStrip s = s := by
  rw [pyStrip, h1, h2, List.reverse_reverse]

theorem pyStrip_eq_self_inv {s : Str} (h : pyStrip s = s) :
    s.dropWhile pyIsSpace = s ∧ s.reverse.dropWhile pyIsSpace = s.reverse := by
  have hsuf := List.dropWhile_suffix (l := s) (p := pyIsSpace)
  have hlen1 : (s.dropWhile pyIsSpace).length ≤ s.length :=
    (List.dropWhile_sublist pyIsSpace).length_le
  have hlen2 : ((s.dropWhile pyIsSpace).reverse.dropWhile pyIsSpace).length ≤
      (s.dropWhile pyIsSpace).length := by
    have := (List.dropWhile_sublist (l := (s.dropWhile pyIsSpace).reverse)
      pyIsSpace).length_le
    simpa using this
  have hplen : (pyStrip s).length =
      ((s.dropWhile pyIsSpace).reverse.dropWhile pyIsSpace).length := by
    rw [pyStrip, List.length_reverse]
  have hlen : s.length = (pyStrip s).length := by rw [h]
  have he1 : (s.dropWhile pyIsSpace).length = s.length := by omega
  have hdw : s.dropWhile pyIsSpace = s := List.IsSuffix.eq_of_length hsuf he1
  refine ⟨hdw, ?_⟩
  have h2 : ((s.dropWhile pyIsSpace).reverse.dropWhile pyIsSpace).reverse
      = s := h
  rw [hdw] at h2
  have : s.reverse.dropWhile pyIsSpace = s.reverse := by
    have := congrArg List.reverse h2
    rwa [List.reverse_reverse] at this
  exact this

/-- A think-free text passes `stripThinkGo` unchanged. -/
theorem stripThinkGo_eq_self :
    ∀ (fuel : Nat) (s : Str), s.length ≤ fuel →
      ¬ ("<think>".toList <:+: s) → stripThinkGo fuel s = s := by
  intro fuel
  induction fuel with
  | zero =>
    intro s hl _
    have : s = [] := List.eq_nil_of_length_eq_zero (Nat.le_zero.mp hl)
    rw [this]
    rfl
  | succ fuel ih =>
    intro s hl hin
    cases s with
    | nil => rfl
    | cons c rest =>
      have hp : ("<think>".toList).isPrefixOf (c :: rest) = false := by
        rw [Bool.eq_false_iff]
        intro hc
        exact hin (List.isPrefixOf_iff_prefix.mp hc).isInfix
      rw [stripThinkGo, hp]
      simp only [Bool.false_eq_true, if_false]
      rw [ih rest (by simpa using Nat.le_of_succ_le_succ (by simpa using hl))
        (fun hinf => hin (List.infix_cons hinf))]

theorem stripThink_eq_self {s : Str} (hin : ¬ ("<think>".toList <:+: s)) :
    stripThink s = s :=
  stripThinkGo_eq_self s.length s le_rfl hin

/-- Self-overlap refutation for `</think>`: no non-trivial prefix of the
literal is also a suffix of it. -/
theorem close_no_border :
    ∀ k, 1 ≤ k → k ≤ 7 →
      ¬ ((("</think>".toList).take k) <:+ ("</think>".toList)) := by
  decide

/-- Scanning `R ++ "</think>" ++ payload` for the first `</think>` finds the
explicit one when `R` contains none. -/
theorem dropThroughClose_concat (R payload : Str)
    (hno : ¬ ("</think>".toList <:+: R)) :
    dropThroughClose (R ++ ("</think>".toList) ++ payload) = some payload := by
  induction R with
  | nil =>
    rw [List.nil_append]
    have hcons : ("</think>".toList) ++ payload =
        '<' :: (("/think>".toList) ++ payload) := rfl
    rw [hcons, dropThroughClose, ← hcons]
    rw [if_pos (List.isPrefixOf_iff_prefix.mpr (List.prefix_append _ _))]
    have : (("</think>".toList) ++ payload).drop 8 = payload := by
      have h8 : ("</think>".toList).length = 8 := rfl
      rw [← h8, List.drop_left]
    rw [this]
  | cons r R' ih =>
    rw [List.cons_append, List.cons_append, dropThroughClose]
    have hp : ("</think>".toList).isPrefixOf
        (r :: (R' ++ ("</think>".toList) ++ payload)) = false := by
      rw [Bool.eq_false_iff]
      intro hc
      have h8 : ("</think>".toList).length = 8 := rfl
      have hpre := List.isPrefixOf_iff_prefix.mp hc
      rw [show r :: (R' ++ ("</think>".toList) ++ payload)
          = (r :: R') ++ (("</think>".toList) ++ payload) by simp] at hpre
      rcases prefix_append_cases hpre with h1 | ⟨l2, hl2, hl2b⟩
      · exact hno h1.isInfix
      · by_cases hl2e : l2 = []
        · rw [hl2e, List.append_nil] at hl2
          exact hno (by rw [hl2])
        · have hlen : l2.length < ("</think>".toList).length := by
            have := congrArg List.length hl2
            simp at this
            omega
          have hl2pre : l2 <+: ("</think>".toList) := by
            rcases prefix_append_cases hl2b with h1 | ⟨l3, hl3, _⟩
            · exact h1
            · exfalso
              have := congrArg List.length hl3
              simp at this
              omega
          have hl2suf : l2 <:+ ("</think>".toList) := ⟨r :: R', hl2.symm⟩
          have hk := List.prefix_iff_eq_take.mp hl2pre
          have h1k : 1 ≤ l2.length := by
            cases l2 with
            | nil => exact absurd rfl hl2e
            | cons _ _ => simp
          exact close_no_border l2.length h1k (by omega) (hk ▸ hl2suf)
    rw [hp]
    simp only [Bool.false_eq_true, if_false]
    exact ih (fun hinf => hno (List.infix_cons hinf))

/-- The item loop never produces a JSON-decode error: those arise only from
`json.loads` itself. -/
theorem resultsOfData_ne_jsonDecode (comments : List BatchComment) :
    ∀ (items : List Json) (msg : Str),
      resultsOfData comments items ≠ .error (.jsonDecode msg) := by
  intro items
  induction items with
  | nil => intro msg h; simp [resultsOfData] at h
  | cons item rest ih =>
    intro msg h
    cases item with
    | obj pairs =>
      rw [resultsOfData] at h
      repeat' split at h
      all_goals simp_all
    | null => simp [resultsOfData] at h
    | bool b => simp [resultsOfData] at h
    | num q => simp [resultsOfData] at h
    | str s => simp [resultsOfData] at h
    | arr a => simp [resultsOfData] at h

/-- C6: a raw model response whose cleaned text is not valid JSON makes
`_parse_response` raise a `ValueError` whose message carries the original
raw response, with no partial results (the error is the entire outcome) and
no retry (the function is a single pass); a response whose cleaned text is
valid JSON never raises at the JSON-parsing step. -/
theorem C6_malformed_json_error (raw : Str) (comments : List BatchComment) :
    (loads (cleanResponse raw) = none →
      parseResponse raw comments = .error (.jsonDecode
        (("Failed to parse LLM response as JSON: ".toList) ++
          ("\nResponse: ".toList) ++ raw)) ∧
      ∃ msg, parseResponse raw comments = .error (.jsonDecode msg) ∧
        raw <:+ msg) ∧
    (loads (cleanResponse raw) ≠ none →
      ∀ msg, parseResponse raw comments ≠ .error (.jsonDecode msg)) := by
  constructor
  · intro h
    refine ⟨by rw [parseResponse, h], _, by rw [parseResponse, h], ?_⟩
    exact List.suffix_append _ raw
  · intro h msg hcon
    cases hv : loads (cleanResponse raw) with
    | none => exact h hv
    | some v =>
      cases v with
      | arr items =>
        rw [parseResponse, hv] at hcon
        exact resultsOfData_ne_jsonDecode comments items msg hcon
      | obj pairs =>
        simp only [parseResponse, hv] at hcon
        split at hcon <;> simp_all
      | str s =>
        simp only [parseResponse, hv] at hcon
        split at hcon <;> simp_all
      | null => simp [parseResponse, hv] at hcon
      | bool b => simp [parseResponse, hv] at hcon
      | num q => simp [parseResponse, hv] at hcon

/-- Witness for C6: a non-JSON response raises with the raw text in the
message; a valid empty-array response does not raise at the JSON step. -/
theorem C6_malformed_json_error_witness :
    (∃ msg, parseResponse ("not json".toList) [] =
      .error (.jsonDecode msg) ∧ ("not json".toList) <:+ msg) ∧
    (∀ msg, parseResponse ("[]".toList) [] ≠ .error (.jsonDecode msg)) :=
  ⟨((C6_malformed_json_error ("not json".toList) []).1 rfl).2,
   (C6_malformed_json_error ("[]".toList) []).2
     (fun hc => Option.noConfusion
       ((rfl : loads (cleanResponse ("[]".toList)) = some (Json.arr [])).symm.trans hc))⟩

/-- A genuine neutral single-comment response: one entry for id `eval` with
score 0.0 and rationale "Analysis failed". -/
def genuineNeutralResp : Str :=
  "[\x7b\"id\": \"eval\", \"score\": 0.0, \"rationale\": \"Analysis failed\"\x7d]".toList

/-- C10: when the model response to a single-comment analysis parses as an
empty JSON array, `analyze_single` does not raise and returns the sentinel
`{score: 0.0, rationale: "Analysis failed"}` — exactly the value a genuine
neutral classification with that rationale would produce, so the fallback is
indistinguishable at the public interface. -/
theorem C10_empty_array_sentinel (resp comment : Str)
    (h : loads (cleanResponse resp) = some (Json.arr [])) :
    analyzeSingle resp comment = .ok (0, "Analysis failed".toList) ∧
    analyzeSingle genuineNeutralResp comment =
      .ok (0, "Analysis failed".toList) := by
  constructor
  · rw [analyzeSingle, parseResponse, h]
    rfl
  · rfl

/-- Witness for C10 at the literal response "[]". -/
theorem C10_empty_array_sentinel_witness :
    loads (cleanResponse ("[]".toList)) = some (Json.arr []) ∧
    analyzeSingle ("[]".toList) ("c".toList) =
      .ok (0, "Analysis failed".toList) :=
  ⟨rfl, (C10_empty_array_sentinel ("[]".toList) ("c".toList) rfl).1⟩

/-- A JSON-array payload of `{id, score, rationale}` objects whose string
values contain think markers. -/
def c4Payload : Str :=
  "[\x7b\"id\": \"<think>\", \"score\": 0, \"rationale\": \"</think>\"\x7d]".toList

/-- C4 counterexample: `c4Payload` parses as a JSON array of objects with
`id`, `score` and `rationale` keys, yet the sentiment response parser does
not succeed on the payload alone: the think-stripping pass removes the span
between the `<think>` in the id string and the `</think>` in the rationale
string, leaving `[{"id": ""}]`, whose missing score raises a `KeyError`. -/
theorem C4_counterexample :
    loads c4Payload = some (Json.arr [Json.obj
      [("id".toList, Json.str ("<think>".toList)),
       ("score".toList, Json.num (mkRat 0 1)),
       ("rationale".toList, Json.str ("</think>".toList))]]) ∧
    cleanResponse c4Payload = ("[\x7b\"id\": \"\"\x7d]".toList) ∧
    parseResponse c4Payload [] =
      .error (.keyMissing ("score".toList)) :=
  ⟨rfl, rfl, rfl⟩

/-- Compact refutation interface for `infix_append_cases`. -/
theorem not_infix_append {l a b : List Char} (ha : ¬ l <:+: a)
    (hb : ¬ l <:+: b)
    (hstrad : ∀ l1 l2, l = l1 ++ l2 → l1 ≠ [] → l2 ≠ [] →
      l1 <:+ a → l2 <+: b → False) :
    ¬ l <:+: a ++ b := by
  intro h
  rcases infix_append_cases h with h1 | h2 | ⟨l1, l2, hl, h1n, h2n, hsuf, hpre⟩
  · exact ha h1
  · exact hb h2
  · exact hstrad l1 l2 hl h1n h2n hsuf hpre

/-- A straddling occurrence is impossible when the pattern's first character
does not occur in the left side. -/
theorem straddle_head_left {lit a : List Char} {c : Char} {t : List Char}
    (hlit : lit = c :: t) (hc : c ∉ a) :
    ∀ l1 l2, lit = l1 ++ l2 → l1 ≠ [] → l1 <:+ a → False := by
  intro l1 l2 hl h1n hsuf
  cases l1 with
  | nil => exact h1n rfl
  | cons h1 t1 =>
    rw [hlit, List.cons_append] at hl
    have hh : h1 = c := (List.cons.injEq _ _ _ _ ▸ hl).1.symm
    exact hc (hsuf.subset (hh ▸ List.mem_cons_self h1 t1))

/-- A straddling occurrence is impossible when the right side's first
character does not occur in the pattern. -/
theorem straddle_head_right {lit b : List Char} {c : Char} {t : List Char}
    (hb : b = c :: t) (hc : c ∉ lit) :
    ∀ l1 l2, lit = l1 ++ l2 → l2 ≠ [] → l2 <+: b → False := by
  intro l1 l2 hl h2n hpre
  cases l2 with
  | nil => exact h2n rfl
  | cons h2 t2 =>
    rw [hb] at hpre
    have hh : h2 = c := (List.cons_prefix_cons.mp hpre).1
    have : h2 ∈ lit := by
      rw [hl]
      exact List.mem_append_right l1 (List.mem_cons_self h2 t2)
    exact hc (hh ▸ this)

/-- A response-array item of the documented shape: an object with a string
`id`, a numeric (or boolean) `score`, and an absent-or-string `rationale`. -/
def wellShapedItem (item : Json) : Bool :=
  match item with
  | .obj pairs =>
    (match jsonObjGet pairs ("id".toList) with
     | some (.str _) => true
     | _ => false) &&
    (match jsonObjGet pairs ("score".toList) with
     | some sv => (jsonScoreVal sv).isSome
     | none => false) &&
    (jsonRationale (jsonObjGet pairs ("rationale".toList))).isSome
  | _ => false

/-- Well-shaped items convert without raising. -/
theorem resultsOfData_ok_of_wellShaped (comments : List BatchComment) :
    ∀ (items : List Json), (∀ i ∈ items, wellShapedItem i = true) →
      ∃ rs, resultsOfData comments items = .ok rs := by
  intro items
  induction items with
  | nil => exact fun _ => ⟨[], rfl⟩
  | cons item rest ih =>
    intro hsh
    have hitem := hsh item (List.mem_cons_self _ _)
    cases item with
    | obj pairs =>
      simp only [wellShapedItem, Bool.and_eq_true] at hitem
      obtain ⟨⟨hA, hB⟩, hC⟩ := hitem
      obtain ⟨rs', hrs'⟩ := ih (fun i hi => hsh i (List.mem_cons_of_mem _ hi))
      cases hid : jsonObjGet pairs ("id".toList) with
      | none => rw [hid] at hA; simp at hA
      | some v =>
        cases v with
        | str cid =>
          cases hsc : jsonObjGet pairs ("score".toList) with
          | none => rw [hsc] at hB; simp at hB
          | some sv =>
            rw [hsc] at hB
            have hB2 : (jsonScoreVal sv).isSome = true := by simpa using hB
            cases hq : jsonScoreVal sv with
            | none => rw [hq] at hB2; simp at hB2
            | some q =>
              cases hrat : jsonRationale
                  (jsonObjGet pairs ("rationale".toList)) with
              | none => rw [hrat] at hC; simp at hC
              | some rat =>
                have hres : resultsOfData comments (Json.obj pairs :: rest) =
                    .ok ({ comment_id := cid,
                           username := (lookupAuthor comments cid).getD
                             ("unknown".toList),
                           score := q,
                           rationale := rat } :: rs') := by
                  rw [resultsOfData]
                  simp only [hid, hsc, hq, hrat, hrs']
                exact ⟨_, hres⟩
        | null => rw [hid] at hA; simp at hA
        | bool b => rw [hid] at hA; simp at hA
        | num q => rw [hid] at hA; simp at hA
        | arr a => rw [hid] at hA; simp at hA
        | obj p2 => rw [hid] at hA; simp at hA
    | null => simp [wellShapedItem] at hitem
    | bool b => simp [wellShapedItem] at hitem
    | num q => simp [wellShapedItem] at hitem
    | str s => simp [wellShapedItem] at hitem
    | arr a => simp [wellShapedItem] at hitem

theorem isPrefixOf_false_of_not_prefix {l s : Str} (h : ¬ l <+: s) :
    l.isPrefixOf s = false := by
  rw [Bool.eq_false_iff]
  intro hc
  exact h (List.isPrefixOf_iff_prefix.mp hc)

/-- A payload that is already stripped, think-free and unfenced passes the
cleaning pipeline unchanged. -/
theorem cleanResponse_eq_self {s : Str} (hstrip : pyStrip s = s)
    (hthink : ¬ ("<think>".toList <:+: s)) (hfence : ¬ ("```".toList <+: s)) :
    cleanResponse s = s := by
  rw [cleanResponse]
  simp only [hstrip, stripThink_eq_self hthink,
    isPrefixOf_false_of_not_prefix hfence, Bool.false_eq_true, if_false]

/-- The opening-fence stripper removes exactly a closed-fence prefix. -/
theorem stripFenceOpen_fence (Y : Str) :
    stripFenceOpen (("```json\n".toList) ++ Y) = Y := rfl

/-- The closing-fence stripper removes exactly a trailing newline fence. -/
theorem stripFenceClose_fence (payload : Str) :
    stripFenceClose (payload ++ ("\n```".toList)) = payload := by
  have hrev : (payload ++ ("\n```".toList)).reverse =
      '`' :: '`' :: '`' :: '\n' :: payload.reverse := by
    rw [List.reverse_append]
    rfl
  simp only [stripFenceClose, hrev, List.reverse_reverse]

/-- Think-free stripped payloads wrapped in a ```json fence clean to the
payload itself. -/
theorem cleanResponse_fenced {payload : Str}
    (hthink : ¬ ("<think>".toList <:+: payload)) :
    cleanResponse (("```json\n".toList) ++ payload ++ ("\n```".toList)) =
      payload := by
  have hc1 : (("```json\n".toList) ++ payload) ++ ("\n```".toList)
      = '`' :: ((("``json\n".toList) ++ payload) ++ ("\n```".toList)) := rfl
  have hd1 : ((("```json\n".toList) ++ payload) ++
      ("\n```".toList)).dropWhile pyIsSpace
      = (("```json\n".toList) ++ payload) ++ ("\n```".toList) := by
    rw [hc1]
    exact dropWhile_cons_false (by decide)
  have hc2 : ((("```json\n".toList) ++ payload) ++
      ("\n```".toList)).reverse
      = '`' :: (("``\n".toList) ++
          ((("```json\n".toList) ++ payload).reverse)) := by
    rw [List.reverse_append]
    rfl
  have hd2 : ((("```json\n".toList) ++ payload) ++
      ("\n```".toList)).reverse.dropWhile pyIsSpace
      = ((("```json\n".toList) ++ payload) ++ ("\n```".toList)).reverse := by
    rw [hc2]
    exact dropWhile_cons_false (by decide)
  have h1 : pyStrip ((("```json\n".toList) ++ payload) ++ ("\n```".toList))
      = (("```json\n".toList) ++ payload) ++ ("\n```".toList) :=
    pyStrip_eq_self hd1 hd2
  have h2 : stripThink ((("```json\n".toList) ++ payload) ++
      ("\n```".toList)) =
      (("```json\n".toList) ++ payload) ++ ("\n```".toList) := by
    apply stripThink_eq_self
    apply not_infix_append
    · apply not_infix_append
      · decide
      · exact hthink
      · intro l1 l2 hl h1n _ hsuf _
        exact straddle_head_left rfl (by decide) l1 l2 hl h1n hsuf
    · decide
    · intro l1 l2 hl _ h2n _ hpre
      exact straddle_head_right rfl (by decide) l1 l2 hl h2n hpre
  have hassoc : (("```json\n".toList) ++ payload) ++ ("\n```".toList)
      = ("```json\n".toList) ++ (payload ++ ("\n```".toList)) := by
    rw [List.append_assoc]
  have hpT : ("```".toList).isPrefixOf
      ((("```json\n".toList) ++ payload) ++ ("\n```".toList)) = true := by
    rw [hassoc]
    rfl
  rw [cleanResponse]
  simp only [h1, h2, hpT, if_true]
  rw [hassoc, stripFenceOpen_fence, stripFenceClose_fence]

/-- A think reasoning block followed by a stripped think-free payload cleans
to the payload itself. -/
theorem cleanResponse_think {payload R : Str}
    (hstrip : pyStrip payload = payload) (hpne : payload ≠ [])
    (hthink : ¬ ("<think>".toList <:+: payload))
    (hfence : ¬ ("```".toList <+: payload))
    (hnoclose : ¬ ("</think>".toList <:+: R)) :
    cleanResponse ((("<think>".toList) ++ R ++ ("</think>".toList)) ++
      payload) = payload := by
  obtain ⟨ph, pt, hrevp⟩ : ∃ h t, payload.reverse = h :: t := by
    cases hrp : payload.reverse with
    | nil => exact absurd (by simpa using congrArg List.reverse hrp) hpne
    | cons h t => exact ⟨h, t, rfl⟩
  have hph : pyIsSpace ph = false := by
    have h2 := (pyStrip_eq_self_inv hstrip).2
    rw [hrevp] at h2
    exact dropWhile_fixed_head h2
  have hc1 : ((("<think>".toList) ++ R ++ ("</think>".toList)) ++ payload)
      = '<' :: (((("think>".toList) ++ R) ++ ("</think>".toList)) ++
          payload) := rfl
  have hd1 : (((("<think>".toList) ++ R ++ ("</think>".toList)) ++
      payload).dropWhile pyIsSpace)
      = (("<think>".toList) ++ R ++ ("</think>".toList)) ++ payload := by
    rw [hc1]
    exact dropWhile_cons_false (by decide)
  have hc2 : ((("<think>".toList) ++ R ++ ("</think>".toList)) ++
      payload).reverse
      = ph :: (pt ++ (("<think>".toList) ++ R ++
          ("</think>".toList)).reverse) := by
    rw [List.reverse_append, hrevp, List.cons_append]
  have hd2 : ((("<think>".toList) ++ R ++ ("</think>".toList)) ++
      payload).reverse.dropWhile pyIsSpace
      = ((("<think>".toList) ++ R ++ ("</think>".toList)) ++
          payload).reverse := by
    rw [hc2]
    exact dropWhile_cons_false hph
  have h1 : pyStrip ((("<think>".toList) ++ R ++ ("</think>".toList)) ++
      payload) = (("<think>".toList) ++ R ++ ("</think>".toList)) ++
      payload := pyStrip_eq_self hd1 hd2
  have hassoc : ((("<think>".toList) ++ R ++ ("</think>".toList)) ++
      payload) = ("<think>".toList) ++ (R ++ (("</think>".toList) ++
        payload)) := by
    simp only [List.append_assoc]
  have hlen : ((("<think>".toList) ++ R ++ ("</think>".toList)) ++
      payload).length = (((("think>".toList) ++ R) ++
        ("</think>".toList)) ++ payload).length + 1 := by
    rw [hc1]
    rfl
  have h2 : stripThink ((("<think>".toList) ++ R ++ ("</think>".toList)) ++
      payload) = payload := by
    rw [stripThink, hlen, hc1, stripThinkGo]
    have hpre : ("<think>".toList).isPrefixOf
        ('<' :: (((("think>".toList) ++ R) ++ ("</think>".toList)) ++
          payload)) = true := by
      rw [← hc1, hassoc]
      exact List.isPrefixOf_iff_prefix.mpr (List.prefix_append _ _)
    rw [hpre]
    simp only [if_true]
    have hdrop : ('<' :: (((("think>".toList) ++ R) ++
        ("</think>".toList)) ++ payload)).drop 7
        = (R ++ ("</think>".toList)) ++ payload := by
      rw [← hc1, hassoc, show (7 : Nat) = ("<think>".toList).length from rfl,
        List.drop_left, ← List.append_assoc]
    rw [hdrop, show (R ++ ("</think>".toList)) ++ payload
        = R ++ ("</think>".toList) ++ payload from rfl,
      dropThroughClose_concat R payload hnoclose]
    apply stripThinkGo_eq_self
    · have : payload.length ≤ (((("think>".toList) ++ R) ++
          ("</think>".toList)) ++ payload).length := by
        simp only [List.length_append]
        omega
      exact this
    · exact hthink
  rw [cleanResponse]
  simp only [h1, h2, hstrip, stripThink_eq_self hthink,
    isPrefixOf_false_of_not_prefix hfence, Bool.false_eq_true, if_false]

/-- C4 (amended): for a payload that parses as a JSON array of well-shaped
`{id, score, rationale}` objects and contains no `<think>` marker (and does
not itself start with a code fence — automatic for a JSON array), and for
any reasoning text without a stray `</think>`, the sentiment response parser
succeeds and yields identical result lists on (1) the payload alone, (2) the
payload wrapped in a ```json fence, and (3) the payload preceded by a
`<think>...</think>` block.  The amendment excludes payloads whose own
string values contain think markers, which `C4_counterexample` shows break
the original claim. -/
theorem C4_response_tolerance_amended (payload R : Str)
    (comments : List BatchComment) (items : List Json)
    (hstrip : pyStrip payload = payload)
    (hloads : loads payload = some (Json.arr items))
    (hshape : ∀ item ∈ items, wellShapedItem item = true)
    (hnothink : ¬ ("<think>".toList <:+: payload))
    (hnofence : ¬ ("```".toList <+: payload))
    (hnoclose : ¬ ("</think>".toList <:+: R)) :
    ∃ rs, parseResponse payload comments = .ok rs ∧
      parseResponse (("```json\n".toList) ++ payload ++ ("\n```".toList))
        comments = .ok rs ∧
      parseResponse ((("<think>".toList) ++ R ++ ("</think>".toList)) ++
        payload) comments = .ok rs := by
  obtain ⟨rs, hrs⟩ := resultsOfData_ok_of_wellShaped comments items hshape
  have hpne : payload ≠ [] := by
    intro hnil
    rw [hnil] at hloads
    have : loads ([] : Str) = none := rfl
    rw [this] at hloads
    exact Option.noConfusion hloads
  have h1 := cleanResponse_eq_self hstrip hnothink hnofence
  have h2 := cleanResponse_fenced hnothink
  have h3 := cleanResponse_think hstrip hpne hnothink hnofence hnoclose
  refine ⟨rs, ?_, ?_, ?_⟩
  · rw [parseResponse, h1, hloads]
    exact hrs
  · rw [parseResponse, h2, hloads]
    exact hrs
  · rw [parseResponse, h3, hloads]
    exact hrs

/-- Witness for the amended C4 on a concrete well-shaped payload. -/
theorem C4_response_tolerance_amended_witness :
    (pyStrip ("[\x7b\"id\": \"c1\", \"score\": 1, \"rationale\": \"ok\"\x7d]".toList)
      = "[\x7b\"id\": \"c1\", \"score\": 1, \"rationale\": \"ok\"\x7d]".toList) ∧
    ∃ rs, parseResponse
        ("[\x7b\"id\": \"c1\", \"score\": 1, \"rationale\": \"ok\"\x7d]".toList)
        [] = .ok rs ∧
      parseResponse (("```json\n".toList) ++
        ("[\x7b\"id\": \"c1\", \"score\": 1, \"rationale\": \"ok\"\x7d]".toList) ++
        ("\n```".toList)) [] = .ok rs ∧
      parseResponse ((("<think>".toList) ++ ("reasoning".toList) ++
        ("</think>".toList)) ++
        ("[\x7b\"id\": \"c1\", \"score\": 1, \"rationale\": \"ok\"\x7d]".toList))
        [] = .ok rs :=
  ⟨rfl, C4_response_tolerance_amended
    ("[\x7b\"id\": \"c1\", \"score\": 1, \"rationale\": \"ok\"\x7d]".toList)
    ("reasoning".toList) [] _ rfl rfl (by decide) (by decide) (by decide)
    (by decide)⟩

/-! ## Comment markdown codec (`RedditClient.save_comments_to_markdown` and
`parse_comments_file`)

The local timezone used by `datetime.fromtimestamp` / `.timestamp()` is
modelled as a fixed offset `off` (seconds east of UTC) passed explicitly; no
claim depends on daylight-saving transitions.  File I/O (`read_text`,
`open(...).write`) is abstracted away: the codec maps between comment lists
and document contents. -/

/-- A comment record (§3 data model; `parent_type` is neither written nor
parsed by the codec and is omitted). -/
structure Comment where
  body : Str
  score : Int
  subreddit : Str
  created_utc : Int
  permalink : Str
deriving DecidableEq

/-- Python exceptions the comment-file parser can raise. -/
inductive PyErr where
  /-- `ValueError` raised by `datetime.strptime` for a calendar-invalid
  date (for example month 13 or February 30). -/
  | strptimeValueError
deriving DecidableEq

/-- Decimal digit character. -/
def digitChar (n : Nat) : Char := Char.ofNat (48 + n)

/-- Fuelled decimal printer (most significant digit first). -/
def natToStrGo : Nat → Nat → Str
  | 0, _ => []
  | fuel + 1, n =>
    if n < 10 then [digitChar n]
    else natToStrGo fuel (n / 10) ++ [digitChar (n % 10)]

/-- Python `str(n)` for a natural number. -/
def natToStr (n : Nat) : Str := natToStrGo (n + 1) n

/-- Python `str(i)` for an integer. -/
def intToStr (i : Int) : Str :=
  if i < 0 then '-' :: natToStr i.natAbs else natToStr i.toNat

/-- Zero-padded two-digit field (`strftime` `%m`/`%d`). -/
def pad2 (n : Nat) : Str := if n < 10 then '0' :: natToStr n else natToStr n

/-! ### Proleptic Gregorian calendar (model of `datetime` date handling) -/

/-- Gregorian leap year. -/
def isLeap (y : Nat) : Bool := (y % 4 == 0 && y % 100 != 0) || y % 400 == 0

/-- Days in a year. -/
def daysInYear (y : Nat) : Nat := if isLeap y then 366 else 365

/-- Days in a month (`m` in 1..12). -/
def daysInMonth (y m : Nat) : Nat :=
  if m = 2 then (if isLeap y then 29 else 28)
  else if m = 4 ∨ m = 6 ∨ m = 9 ∨ m = 11 then 30
  else 31

/-- Sum of `daysInYear` over `count` years starting at `start`.  (Kept to at
most one 400-year Gregorian cycle so that concrete evaluation stays
shallow.) -/
def daysBeforeYearCycle : Nat → Nat → Nat
  | 0, _ => 0
  | k + 1, start => daysBeforeYearCycle k start + daysInYear (start + k)

/-- Days in one full 400-year Gregorian cycle. -/
def cycleDays : Nat := 146097

/-- Days from 0001-01-01 to the start of year `y` (for `y ≥ 1`):
whole 400-year cycles plus the remaining years. -/
def daysBeforeYear (y : Nat) : Nat :=
  (y - 1) / 400 * cycleDays +
    daysBeforeYearCycle ((y - 1) % 400) (1 + 400 * ((y - 1) / 400))

/-- Days from the start of year `y` to the start of month `m` (`m` 1..13). -/
def daysBeforeMonth (y : Nat) : Nat → Nat
  | 0 => 0
  | 1 => 0
  | m + 2 => daysBeforeMonth y (m + 1) + daysInMonth y (m + 1)

/-- Day number (0-based from 0001-01-01) of a civil date. -/
def dayNumOfDate (y m d : Nat) : Nat :=
  daysBeforeYear y + daysBeforeMonth y m + (d - 1)

/-- Find the year containing day offset `n` (counting from year `y`). -/
def findYearGo : Nat → Nat → Nat → Nat × Nat
  | 0, y, n => (y, n)
  | fuel + 1, y, n =>
    if n < daysInYear y then (y, n) else findYearGo fuel (y + 1) (n - daysInYear y)

/-- Find the month of year `y` containing day offset `n` (from month `m`). -/
def findMonthGo (y : Nat) : Nat → Nat → Nat → Nat × Nat
  | 0, m, n => (m, n)
  | fuel + 1, m, n =>
    if n < daysInMonth y m then (m, n)
    else findMonthGo y fuel (m + 1) (n - daysInMonth y m)

/-- Civil date of a 0-based day number (inverse of `dayNumOfDate`): jump
whole 400-year cycles, then search year by year. -/
def dateOfDayNum (n : Nat) : Nat × Nat × Nat :=
  let r := n % cycleDays
  let yr := findYearGo (r + 2) (1 + 400 * (n / cycleDays)) r
  let mr := findMonthGo yr.1 13 1 yr.2
  (yr.1, mr.1, mr.2 + 1)

/-- Days from 0001-01-01 to 1970-01-01 (the Unix epoch). -/
def epochShift : Nat := 719162

/-- The local civil date of a Unix timestamp under offset `off`
(model of `datetime.fromtimestamp(ts)`'s date fields). -/
def localDate (off ts : Int) : Nat × Nat × Nat :=
  dateOfDayNum (((ts + off).ediv 86400 + (epochShift : Int)).toNat)

/-- `datetime.fromtimestamp(ts).strftime("%Y-%m-%d")`: the year unpadded
(as glibc prints it; four digits in the 1000..9999 range the claims use),
month and day zero-padded to two digits. -/
def dateStr (off ts : Int) : Str :=
  let ymd := localDate off ts
  natToStr ymd.1 ++ ['-'] ++ pad2 ymd.2.1 ++ ['-'] ++ pad2 ymd.2.2

/-- `datetime.strptime(f"{y:04d}-{m:02d}-{d:02d}", "%Y-%m-%d").timestamp()`:
validates the calendar fields (raising `ValueError` otherwise, as
`_strptime`/`datetime` do) and returns local midnight of that date. -/
def strptimeTs (off : Int) (y m d : Nat) : Except PyErr Int :=
  if 1 ≤ y ∧ 1 ≤ m ∧ m ≤ 12 ∧ 1 ≤ d ∧ d ≤ daysInMonth y m then
    .ok (((dayNumOfDate y m d : Int) - (epochShift : Int)) * 86400 - off)
  else .error .strptimeValueError

/-! ### Writer -/

/-- One comment block as written by `save_comments_to_markdown`. -/
def commentBlock (off : Int) (c : Comment) : Str :=
  ("### Comment (Score: ".toList) ++ intToStr c.score ++
  (")\n**Date:** ".toList) ++ dateStr off c.created_utc ++
  ("\n**Link:** [View on Reddit](".toList) ++ c.permalink ++
  (")\n\n".toList) ++ c.body ++ ("\n\n---\n\n".toList)

/-- The distinct subreddits in first-seen order (Python dict insertion
order in the grouping loop). -/
def firstSeenSubs (comments : List Comment) : List Str :=
  comments.foldl
    (fun acc c => if c.subreddit ∈ acc then acc else acc ++ [c.subreddit]) []

/-- One subreddit section as written. -/
def sectionText (off : Int) (comments : List Comment) (sub : Str) : Str :=
  let group := comments.filter (fun c => c.subreddit == sub)
  ("## r/".toList) ++ sub ++ (" (".toList) ++ natToStr group.length ++
  (" comments)\n\n".toList) ++ (group.map (commentBlock off)).flatten

/-- Embeds `RedditClient.save_comments_to_markdown`.  The generation
timestamp written on the `**Generated:**` line (`datetime.now()`) is passed
as `genTime`. -/
def saveCommentsToMarkdown (off : Int) (genTime : Str)
    (comments : List Comment) (username : Str) : Str :=
  ("# Reddit Comments Analysis: u/".toList) ++ username ++
  ("\n\n**Generated:** ".toList) ++ genTime ++
  ("\n**Total Comments:** ".toList) ++ natToStr comments.length ++
  ("\n\n".toList) ++
  ((firstSeenSubs comments).map (sectionText off comments)).flatten

/-! ### Parser -/

/-- Take everything through the first newline (inclusive); `none` if no
newline follows. -/
def takeThroughNl : Str → Option (Str × Str)
  | [] => none
  | '\n' :: rest => some (['\n'], rest)
  | c :: rest => (takeThroughNl rest).map (fun p => (c :: p.1, p.2))

/-- A match of the section-split delimiter `## r/\w+[^\n]*\n` anchored at
the start of `s`: the matched line (through its newline) and the rest. -/
def delimHead (s : Str) : Option (Str × Str) :=
  if ("## r/".toList).isPrefixOf s then
    match s.drop 5 with
    | c :: _ =>
      if isWordChar c then
        (takeThroughNl (s.drop 5)).map
          (fun p => (("## r/".toList) ++ p.1, p.2))
      else none
    | [] => none
  else none

/-- Leftmost delimiter match: text before it, the match, text after. -/
def findDelim : Str → Option (Str × Str × Str)
  | [] => none
  | c :: rest =>
    match delimHead (c :: rest) with
    | some (d, after) => some ([], d, after)
    | none =>
      (findDelim rest).map (fun p => (c :: p.1, p.2.1, p.2.2))

/-- Fuelled worker for `reSplit`; each step consumes at least one
character. -/
def reSplitGo : Nat → Str → List Str
  | 0, s => [s]
  | fuel + 1, s =>
    match findDelim s with
    | none => [s]
    | some (before, d, after) => before :: d :: reSplitGo fuel after

/-- `re.split(r"(## r/\w+[^\n]*\n)", content)` with the captured delimiter
kept in the result. -/
def reSplit (s : Str) : List Str := reSplitGo (s.length + 1) s

/-- `re.match(r"## r/(\w+)", section)`: the captured subreddit name when
the section starts with a header. -/
def matchHeader (s : Str) : Option Str :=
  if ("## r/".toList).isPrefixOf s then
    let run := (s.drop 5).takeWhile isWordChar
    if run.isEmpty then none else some run
  else none

/-- Captured groups of one comment-block match. -/
structure CommentCap where
  neg : Bool
  scoreDigits : Str
  y : Nat
  m : Nat
  d : Nat
  permTail : Str
  body : Str
deriving DecidableEq

/-- Exactly `k` digits: their value and the rest. -/
def takeDigits (k : Nat) (s : Str) : Option (Nat × Str) :=
  let pre := s.take k
  if pre.length = k ∧ pre.all Char.isDigit then
    some (digitsVal pre, s.drop k)
  else none

/-- Leftmost occurrence of `\n---`: the text before it and the text from it
on (the look-ahead `(?=\n---)` does not consume). -/
def findStop : Str → Option (Str × Str)
  | [] => none
  | c :: rest =>
    if ("\n---".toList).isPrefixOf (c :: rest) then some ([], c :: rest)
    else (findStop rest).map (fun p => (c :: p.1, p.2))

/-- Attempt the comment-block pattern anchored at `s` (which is assumed to
start with `### Comment (Score: `): the captures and the text after the
match (the body's look-ahead terminator is not consumed). -/
def tryComment (s : Str) : Option (CommentCap × Str) :=
  let s1 := s.drop 20
  let (neg, s2) :=
    match s1 with
    | c :: r => if c = '-' then (true, r) else (false, s1)
    | [] => (false, s1)
  let ds := s2.takeWhile Char.isDigit
  if ds.isEmpty then none
  else
    match s2.drop ds.length with
    | ')' :: '\n' :: s3 =>
      if ("**Date:** ".toList).isPrefixOf s3 then
        match takeDigits 4 (s3.drop 10) with
        | none => none
        | some (y, s4) =>
          match s4 with
          | '-' :: s5 =>
            match takeDigits 2 s5 with
            | none => none
            | some (m, s6) =>
              match s6 with
              | '-' :: s7 =>
                match takeDigits 2 s7 with
                | none => none
                | some (d, s8) =>
                  match s8 with
                  | '\n' :: s9 =>
                    if ("**Link:** [View on Reddit](".toList).isPrefixOf s9
                    then
                      let s10 := s9.drop 27
                      if ("https://".toList).isPrefixOf s10 then
                        let run := (s10.drop 8).takeWhile (fun c => c != ')')
                        if run.isEmpty then none
                        else
                          match (s10.drop 8).drop run.length with
                          | ')' :: '\n' :: '\n' :: s11 =>
                            let (body, after) :=
                              match findStop s11 with
                              | some p => p
                              | none => (s11, [])
                            some ({ neg := neg, scoreDigits := ds, y := y,
                                    m := m, d := d, permTail := run,
                                    body := body }, after)
                          | _ => none
                      else none
                    else none
                  | _ => none
              | _ => none
          | _ => none
      else none
    | _ => none

/-- Assemble a parsed comment from the captures (as the loop body of
`parse_comments_file` does: `int(...)`, `strptime(...).timestamp()`,
`.strip()` on the body). -/
def commentOfCap (off : Int) (sub : Str) (cap : CommentCap) :
    Except PyErr Comment :=
  match strptimeTs off cap.y cap.m cap.d with
  | .error e => .error e
  | .ok ts =>
    .ok { body := pyStrip cap.body
          score := (if cap.neg then -(digitsVal cap.scoreDigits : Int)
            else (digitsVal cap.scoreDigits : Int))
          subreddit := sub
          created_utc := ts
          permalink := ("https://".toList) ++ cap.permTail }

/-- Fuelled worker of the per-section `finditer` loop. -/
def scanGo (off : Int) (sub : Str) : Nat → Str → Except PyErr (List Comment)
  | 0, _ => .ok []
  | _, [] => .ok []
  | fuel + 1, c :: rest =>
    if ("### Comment (Score: ".toList).isPrefixOf (c :: rest) then
      match tryComment (c :: rest) with
      | some (cap, after) =>
        match commentOfCap off sub cap with
        | .error e => .error e
        | .ok cm =>
          match scanGo off sub fuel after with
          | .error e => .error e
          | .ok cs => .ok (cm :: cs)
      | none => scanGo off sub fuel rest
    else scanGo off sub fuel rest

/-- All comment-block matches of a section, associated to `sub`. -/
def scanComments (off : Int) (sub : Str) (s : Str) :
    Except PyErr (List Comment) := scanGo off sub s.length s

/-- The section loop of `parse_comments_file`: headers set the current
subreddit; other pieces are scanned when a subreddit is current.  (The
capture group of `re.split` interleaves headers and section bodies.) -/
def processSections (off : Int) :
    Option Str → List Str → Except PyErr (List Comment)
  | _, [] => .ok []
  | cur, sec :: rest =>
    match matchHeader sec with
    | some sub => processSections off (some sub) rest
    | none =>
      match cur with
      | none => processSections off cur rest
      | some sub =>
        match scanComments off sub sec with
        | .error e => .error e
        | .ok cs =>
          match processSections off cur rest with
          | .error e => .error e
          | .ok rest' => .ok (cs ++ rest')

/-- Embeds `parse_comments_file` (on the file's content).  The first
subreddit-tracking loop of the source (lines 35–39) computes a value that
is immediately reset to `None` before use and is therefore omitted. -/
def parseCommentsFile (off : Int) (content : Str) :
    Except PyErr (List Comment) :=
  processSections off none (reSplit content)

/-- A document whose comment block matches the grammar exactly but carries
the calendar-invalid date `2023-13-01`. -/
def c7BadDoc : Str :=
  ("## r/test (1 comments)\n\n### Comment (Score: 1)\n**Date:** 2023-13-01\n**Link:** [View on Reddit](https://reddit.com/x)\n\nbody\n\n---\n\n").toList

/-- A well-formed document with the same shape and a valid date. -/
def c7GoodDoc : Str :=
  ("## r/test (1 comments)\n\n### Comment (Score: 1)\n**Date:** 2023-11-14\n**Link:** [View on Reddit](https://reddit.com/x)\n\nbody\n\n---\n\n").toList

/-- C7: the comment-file parser is not total: on `c7BadDoc` (month 13) the
`datetime.strptime` call inside the loop raises `ValueError` instead of the
block being silently omitted; the same document with a valid date parses. -/
theorem C7_parser_raises_on_invalid_date :
    parseCommentsFile 0 c7BadDoc = .error PyErr.strptimeValueError ∧
    parseCommentsFile 0 c7GoodDoc =
      .ok [{ body := "body".toList, score := 1, subreddit := "test".toList,
             created_utc := 1699920000, permalink :=
               "https://reddit.com/x".toList }] := by
  constructor
  · rfl
  · rfl

/-- A comment whose markdown body contains a `---` separator line. -/
def c2BadComment : Comment :=
  { body := "a\n---\nb".toList, score := 1, subreddit := "test".toList,
    created_utc := 1700000000,
    permalink := "https://reddit.com/x".toList }

/-- C2 counterexample: writing a comment whose (arbitrary-markdown) body
contains a `---` separator line and re-reading the file does not restore
the body: the lazy body capture stops at the first `\n---`, so the comment
comes back with body `a` instead of `a\n---\nb`. -/
theorem C2_counterexample :
    parseCommentsFile 0
      (saveCommentsToMarkdown 0 ("2025-01-01 00:00:00".toList)
        [c2BadComment] ("TestUser".toList)) =
      .ok [{ body := "a".toList, score := 1, subreddit := "test".toList,
             created_utc := 1699920000, permalink :=
               "https://reddit.com/x".toList }] ∧
    ("a".toList : Str) ≠ c2BadComment.body := by
  constructor
  · rfl
  · decide

/-! ### Decimal printing round-trip -/

theorem digitsVal_append_singleton (a : Str) (c : Char) :
    digitsVal (a ++ [c]) = digitsVal a * 10 + (c.toNat - 48) := by
  simp [digitsVal, List.foldl_append]

theorem digitChar_isDigit : ∀ n, n < 10 → (digitChar n).isDigit = true := by
  decide

theorem digitChar_toNat : ∀ n, n < 10 → (digitChar n).toNat = 48 + n := by
  decide

theorem natToStrGo_spec : ∀ fuel n, n < fuel →
    (∀ c ∈ natToStrGo fuel n, c.isDigit = true) ∧
    digitsVal (natToStrGo fuel n) = n ∧ natToStrGo fuel n ≠ [] := by
  intro fuel
  induction fuel with
  | zero => intro n hn; omega
  | succ fuel ih =>
    intro n hn
    rw [natToStrGo]
    by_cases h10 : n < 10
    · rw [if_pos h10]
      refine ⟨?_, ?_, by simp⟩
      · intro c hc
        rw [List.mem_singleton] at hc
        rw [hc]
        exact digitChar_isDigit n h10
      · simp [digitsVal, digitChar_toNat n h10]
    · rw [if_neg h10]
      have hdiv : n / 10 < fuel := by
        have := Nat.div_lt_self (by omega : 0 < n) (by omega : 1 < 10)
        omega
      obtain ⟨ihd, ihv, ihn⟩ := ih (n / 10) hdiv
      have hm : n % 10 < 10 := Nat.mod_lt _ (by omega)
      refine ⟨?_, ?_, by simp⟩
      · intro c hc
        rcases List.mem_append.mp hc with h | h
        · exact ihd c h
        · rw [List.mem_singleton] at h
          rw [h]
          exact digitChar_isDigit _ hm
      · rw [digitsVal_append_singleton, ihv, digitChar_toNat _ hm]
        omega

theorem natToStr_digits (n : Nat) : ∀ c ∈ natToStr n, c.isDigit = true :=
  (natToStrGo_spec (n + 1) n (by omega)).1

theorem natToStr_val (n : Nat) : digitsVal (natToStr n) = n :=
  (natToStrGo_spec (n + 1) n (by omega)).2.1

theorem natToStr_ne_nil (n : Nat) : natToStr n ≠ [] :=
  (natToStrGo_spec (n + 1) n (by omega)).2.2

theorem natToStrGo_len : ∀ k fuel n, n < fuel → 10 ^ k ≤ n →
    n < 10 ^ (k + 1) → (natToStrGo fuel n).length = k + 1 := by
  intro k
  induction k with
  | zero =>
    intro fuel n hf h1 h2
    match fuel with
    | 0 => omega
    | fuel + 1 =>
      rw [natToStrGo, if_pos (by simpa using h2)]
      rfl
  | succ k ih =>
    intro fuel n hf h1 h2
    match fuel with
    | 0 => omega
    | fuel + 1 =>
      have h10 : ¬ n < 10 := by
        have : (10 : Nat) ≤ 10 ^ (k + 1) := by
          calc (10 : Nat) = 10 ^ 1 := by norm_num
          _ ≤ 10 ^ (k + 1) := Nat.pow_le_pow_right (by omega) (by omega)
        omega
      rw [natToStrGo, if_neg h10]
      have e1 : 10 ^ (k + 1) = 10 ^ k * 10 := by rw [pow_succ]
      have e2 : 10 ^ (k + 2) = 10 ^ (k + 1) * 10 := by rw [pow_succ]
      have hdl : n / 10 < fuel := by
        have := Nat.div_lt_self (by omega : 0 < n) (by omega : 1 < 10)
        omega
      have hlo : 10 ^ k ≤ n / 10 := by
        rw [Nat.le_div_iff_mul_le (by omega : 0 < 10)]
        omega
      have hhi : n / 10 < 10 ^ (k + 1) := by
        rw [Nat.div_lt_iff_lt_mul (by omega : 0 < 10)]
        omega
      rw [List.length_append, ih fuel (n / 10) hdl hlo hhi]
      rfl

theorem natToStr_len4 {n : Nat} (h1 : 1000 ≤ n) (h2 : n ≤ 9999) :
    (natToStr n).length = 4 := by
  have := natToStrGo_len 3 (n + 1) n (by omega) (by norm_num; omega)
    (by norm_num; omega)
  simpa [natToStr] using this

theorem natToStr_len2 {n : Nat} (h1 : 10 ≤ n) (h2 : n ≤ 99) :
    (natToStr n).length = 2 := by
  have := natToStrGo_len 1 (n + 1) n (by omega) (by norm_num; omega)
    (by norm_num; omega)
  simpa [natToStr] using this

theorem digitsVal_cons_zero (a : Str) : digitsVal ('0' :: a) = digitsVal a := by
  simp [digitsVal, List.foldl_cons]

theorem pad2_spec {n : Nat} (h : n ≤ 99) :
    (pad2 n).length = 2 ∧ (∀ c ∈ pad2 n, c.isDigit = true) ∧
    digitsVal (pad2 n) = n := by
  rw [pad2]
  by_cases h10 : n < 10
  · rw [if_pos h10]
    have hl : natToStr n = [digitChar n] := by
      rw [natToStr, natToStrGo, if_pos h10]
    refine ⟨?_, ?_, ?_⟩
    · rw [hl]; rfl
    · intro c hc
      rcases List.mem_cons.mp hc with h | h
      · rw [h]; rfl
      · exact natToStr_digits n c h
    · rw [digitsVal_cons_zero, natToStr_val]
  · rw [if_neg h10]
    exact ⟨natToStr_len2 (by omega) h, natToStr_digits n, natToStr_val n⟩

/-- `takeWhile`/`dropWhile` stop exactly at the first failing element. -/
theorem takeWhile_append_eq {p : Char → Bool} {a : Str} {b0 : Char}
    {bs : Str} (ha : ∀ c ∈ a, p c = true) (hb : p b0 = false) :
    (a ++ b0 :: bs).takeWhile p = a ∧
    (a ++ b0 :: bs).dropWhile p = b0 :: bs := by
  induction a with
  | nil => simp [List.takeWhile, List.dropWhile, hb]
  | cons x xs ih =>
    have hx : p x = true := ha x (by simp)
    obtain ⟨iht, ihd⟩ := ih (fun c hc => ha c (by simp [hc]))
    constructor
    · rw [List.cons_append, List.takeWhile_cons, hx]
      simp only [if_true, iht]
    · rw [List.cons_append, List.dropWhile_cons, hx]
      simp only [if_true, ihd]

theorem takeDigits_append {k : Nat} {a rest : Str}
    (hlen : a.length = k) (hdig : ∀ c ∈ a, c.isDigit = true) :
    takeDigits k (a ++ rest) = some (digitsVal a, rest) := by
  rw [takeDigits]
  have ht : (a ++ rest).take k = a := by
    rw [← hlen, List.take_left]
  have hd : (a ++ rest).drop k = rest := by
    rw [← hlen, List.drop_left]
  rw [ht, hd, if_pos ⟨hlen, List.all_eq_true.mpr hdig⟩]

/-! ### Calendar lemmas -/

theorem isLeap_periodic (y : Nat) : isLeap (y + 400) = isLeap y := by
  have h4 : (y + 400) % 4 = y % 4 := by omega
  have h100 : (y + 400) % 100 = y % 100 := by omega
  have h400 : (y + 400) % 400 = y % 400 := by omega
  simp [isLeap, h4, h100, h400]

theorem daysInYear_periodic (y : Nat) : daysInYear (y + 400) = daysInYear y := by
  rw [daysInYear, daysInYear, isLeap_periodic]

theorem daysBeforeYearCycle_shift :
    ∀ k s, daysBeforeYearCycle k (s + 400) = daysBeforeYearCycle k s := by
  intro k
  induction k with
  | zero => intro s; rfl
  | succ k ih =>
    intro s
    rw [daysBeforeYearCycle, daysBeforeYearCycle, ih]
    have : s + 400 + k = s + k + 400 := by omega
    rw [this, daysInYear_periodic]

theorem daysBeforeYearCycle_400 :
    ∀ q, daysBeforeYearCycle 400 (1 + 400 * q) = cycleDays := by
  intro q
  induction q with
  | zero => decide
  | succ q ih =>
    have : 1 + 400 * (q + 1) = (1 + 400 * q) + 400 := by omega
    rw [this, daysBeforeYearCycle_shift, ih]

theorem daysBeforeYear_one : daysBeforeYear 1 = 0 := rfl

theorem daysBeforeYear_succ {y : Nat} (hy : 1 ≤ y) :
    daysBeforeYear (y + 1) = daysBeforeYear y + daysInYear y := by
  rw [daysBeforeYear, daysBeforeYear]
  rcases Nat.lt_or_ge ((y - 1) % 400) 399 with hr | hr
  · have e1 : (y + 1 - 1) / 400 = (y - 1) / 400 := by omega
    have e2 : (y + 1 - 1) % 400 = (y - 1) % 400 + 1 := by omega
    rw [e1, e2, daysBeforeYearCycle]
    have e3 : 1 + 400 * ((y - 1) / 400) + (y - 1) % 400 = y := by omega
    rw [e3]
    omega
  · have hr399 : (y - 1) % 400 = 399 := by omega
    have e1 : (y + 1 - 1) / 400 = (y - 1) / 400 + 1 := by omega
    have e2 : (y + 1 - 1) % 400 = 0 := by omega
    rw [e1, e2, hr399]
    have h400 : daysBeforeYearCycle 400 (1 + 400 * ((y - 1) / 400)) =
        cycleDays := daysBeforeYearCycle_400 _
    have hstep : daysBeforeYearCycle 400 (1 + 400 * ((y - 1) / 400)) =
        daysBeforeYearCycle 399 (1 + 400 * ((y - 1) / 400)) +
          daysInYear (1 + 400 * ((y - 1) / 400) + 399) := rfl
    have e3 : 1 + 400 * ((y - 1) / 400) + 399 = y := by omega
    rw [e3] at hstep
    have : daysBeforeYearCycle 0 (1 + 400 * ((y - 1) / 400 + 1)) = 0 := rfl
    rw [this]
    simp only [cycleDays] at h400 ⊢
    omega

theorem daysInYear_pos (y : Nat) : 365 ≤ daysInYear y := by
  rw [daysInYear]
  split <;> omega

theorem findYearGo_spec : ∀ fuel y n, n + 1 ≤ fuel → 1 ≤ y →
    daysBeforeYear (findYearGo fuel y n).1 + (findYearGo fuel y n).2 =
      daysBeforeYear y + n ∧
    (findYearGo fuel y n).2 < daysInYear (findYearGo fuel y n).1 ∧
    y ≤ (findYearGo fuel y n).1 := by
  intro fuel
  induction fuel with
  | zero => intro y n h; omega
  | succ fuel ih =>
    intro y n hf hy
    rw [findYearGo]
    by_cases h : n < daysInYear y
    · rw [if_pos h]
      exact ⟨rfl, h, le_rfl⟩
    · rw [if_neg h]
      have h365 := daysInYear_pos y
      obtain ⟨ih1, ih2, ih3⟩ := ih (y + 1) (n - daysInYear y)
        (by omega) (by omega)
      refine ⟨?_, ih2, by omega⟩
      rw [ih1, daysBeforeYear_succ hy]
      omega

theorem daysBeforeMonth_13 (y : Nat) : daysBeforeMonth y 13 = daysInYear y := by
  cases hl : isLeap y <;>
    simp [daysBeforeMonth, daysInMonth, daysInYear, hl]

theorem daysInMonth_pos (y m : Nat) : 28 ≤ daysInMonth y m := by
  rw [daysInMonth]
  split
  · split <;> omega
  · split <;> omega

theorem findMonthGo_spec (y : Nat) : ∀ fuel m n, 1 ≤ m → m ≤ 12 →
    13 - m ≤ fuel →
    daysBeforeMonth y m + n < daysInYear y →
    daysBeforeMonth y (findMonthGo y fuel m n).1 +
      (findMonthGo y fuel m n).2 = daysBeforeMonth y m + n ∧
    (findMonthGo y fuel m n).2 < daysInMonth y (findMonthGo y fuel m n).1 ∧
    1 ≤ (findMonthGo y fuel m n).1 ∧ (findMonthGo y fuel m n).1 ≤ 12 := by
  intro fuel
  induction fuel with
  | zero => intro m n h1 h2 hf; omega
  | succ fuel ih =>
    intro m n h1 h2 hf hlt
    rw [findMonthGo]
    by_cases h : n < daysInMonth y m
    · rw [if_pos h]
      exact ⟨rfl, h, h1, h2⟩
    · rw [if_neg h]
      have hstep : daysBeforeMonth y (m + 1) =
          daysBeforeMonth y m + daysInMonth y m := by
        match m, h1 with
        | m + 1, _ => rfl
      have hm12 : m + 1 ≤ 12 := by
        by_contra hc
        have hm' : m = 12 := by omega
        have h13 : daysBeforeMonth y 13 = daysBeforeMonth y m + daysInMonth y m := by
          rw [hm']
          rfl
        rw [daysBeforeMonth_13] at h13
        omega
      obtain ⟨ih1, ih2, ih3, ih4⟩ := ih (m + 1) (n - daysInMonth y m)
        (by omega) hm12 (by omega) (by rw [hstep]; omega)
      refine ⟨?_, ih2, ih3, ih4⟩
      rw [ih1, hstep]
      omega

/-- The civil-date conversion is a right inverse of the day-number
computation, with all fields in range. -/
theorem dateOfDayNum_spec (n : Nat) :
    dayNumOfDate (dateOfDayNum n).1 (dateOfDayNum n).2.1
      (dateOfDayNum n).2.2 = n ∧
    1 ≤ (dateOfDayNum n).1 ∧
    1 ≤ (dateOfDayNum n).2.1 ∧ (dateOfDayNum n).2.1 ≤ 12 ∧
    1 ≤ (dateOfDayNum n).2.2 ∧
    (dateOfDayNum n).2.2 ≤ daysInMonth (dateOfDayNum n).1
      (dateOfDayNum n).2.1 := by
  obtain ⟨hy1, hy2, hy3⟩ := findYearGo_spec (n % cycleDays + 2)
    (1 + 400 * (n / cycleDays)) (n % cycleDays) (by omega) (by omega)
  have hbase : daysBeforeYear (1 + 400 * (n / cycleDays)) =
      n / cycleDays * cycleDays := by
    rw [daysBeforeYear]
    have e1 : (1 + 400 * (n / cycleDays) - 1) / 400 = n / cycleDays := by
      omega
    have e2 : (1 + 400 * (n / cycleDays) - 1) % 400 = 0 := by omega
    have e3 : daysBeforeYearCycle 0 (1 + 400 * (n / cycleDays)) = 0 := rfl
    rw [e1, e2, e3]
    exact Nat.add_zero _
  set yr := findYearGo (n % cycleDays + 2) (1 + 400 * (n / cycleDays))
    (n % cycleDays) with hyr
  have h01 : daysBeforeMonth yr.1 1 = 0 := rfl
  obtain ⟨hm1, hm2, hm3, hm4⟩ := findMonthGo_spec yr.1 13 1 yr.2
    (by omega) (by omega) (by omega) (by rw [h01]; omega)
  set mr := findMonthGo yr.1 13 1 yr.2 with hmr
  have hd : dateOfDayNum n = (yr.1, mr.1, mr.2 + 1) := by
    rw [hmr, hyr]
    rfl
  rw [hd]
  simp only
  refine ⟨?_, by omega, hm3, hm4, by omega, by omega⟩
  rw [dayNumOfDate]
  rw [h01] at hm1
  simp only [cycleDays] at hbase hy1
  omega

/-! ### Round-trip machinery for the comment codec

Specification-side definitions naming what the parse of a written file is
expected to produce: the writer groups comments by subreddit (first-seen
order) and the parser recovers each comment with its timestamp replaced by
local midnight of its local calendar date. -/

/-- Local midnight (under offset `off`) of the local calendar day
containing `ts`: what `strptime(strftime(ts))` round-trips to. -/
def localMidnight (off ts : Int) : Int := (ts + off).ediv 86400 * 86400 - off

/-- A comment as the parser recovers it: identical except that
`created_utc` is truncated to local midnight (day granularity). -/
def dayNormalize (off : Int) (c : Comment) : Comment :=
  { c with created_utc := localMidnight off c.created_utc }

/-- The comments of one subreddit, in original order (the writer's
grouping). -/
def subGroup (comments : List Comment) (sub : Str) : List Comment :=
  comments.filter (fun c => c.subreddit == sub)

/-- The conditions under which a comment survives the writer→parser round
trip: a stripped body free of the `\n---` terminator and of the section
delimiter, a word-character subreddit name, an `https://` permalink with a
nonempty `)`-free tail, and a representable date with a four-digit year. -/
def writableComment (off : Int) (c : Comment) : Prop :=
  pyStrip c.body = c.body ∧
  ¬ (("\n---".toList) <:+: c.body) ∧
  ¬ (("## r/".toList) <:+: c.body) ∧
  c.subreddit ≠ [] ∧
  (∀ ch ∈ c.subreddit, isWordChar ch = true) ∧
  (("https://".toList) <+: c.permalink) ∧
  c.permalink.drop 8 ≠ [] ∧
  (')' ∉ c.permalink.drop 8) ∧
  ¬ (("## r/".toList) <:+: c.permalink.drop 8) ∧
  0 ≤ (c.created_utc + off).ediv 86400 + (epochShift : Int) ∧
  1000 ≤ (localDate off c.created_utc).1 ∧ (localDate off c.created_utc).1 ≤ 9999

instance (off : Int) (c : Comment) : Decidable (writableComment off c) := by
  unfold writableComment
  infer_instance

/-- The preamble the writer emits before the first section. -/
def preambleStr (genTime : Str) (comments : List Comment) (username : Str) :
    Str :=
  ("# Reddit Comments Analysis: u/".toList) ++ username ++
  ("\n\n**Generated:** ".toList) ++ genTime ++
  ("\n**Total Comments:** ".toList) ++ natToStr comments.length ++
  ("\n\n".toList)

/-- The concatenation of the written sections for `subs`. -/
def sectionsText (off : Int) (comments : List Comment) (subs : List Str) :
    Str :=
  (subs.map (sectionText off comments)).flatten

/-- A section's header line (through its newline), as `re.split` captures
it. -/
def hdrStr (comments : List Comment) (sub : Str) : Str :=
  ("## r/".toList) ++ sub ++ (" (".toList) ++
  natToStr (subGroup comments sub).length ++ (" comments)\n".toList)

/-- A section's remainder after its header line. -/
def tailStr (off : Int) (comments : List Comment) (sub : Str) : Str :=
  ("\n".toList) ++ ((subGroup comments sub).map (commentBlock off)).flatten

/-- The pieces `re.split` produces after the preamble: header, remainder,
header, remainder, … -/
def sectionPieces (off : Int) (comments : List Comment) : List Str → List Str
  | [] => []
  | sub :: rest =>
    hdrStr comments sub :: tailStr off comments sub ::
      sectionPieces off comments rest

/-! ### Straddling-occurrence refuters -/

theorem suffix_of_suffix_length_le {α : Type} {u v a : List α}
    (hu : u <:+ a) (hv : v <:+ a) (h : u.length ≤ v.length) : u <:+ v := by
  rw [← List.reverse_prefix] at hu hv ⊢
  exact List.prefix_of_prefix_length_le hu hv (by simpa using h)

theorem prefix_mono_left {α : Type} {x l y : List α} (h : l <+: y) :
    x ++ l <+: x ++ y := by
  obtain ⟨t, ht⟩ := h
  exact ⟨t, by rw [List.append_assoc, ht]⟩

theorem prefix_take_of_prefix {α : Type} {l b : List α} {n : Nat}
    (h : l <+: b) (hn : l.length ≤ n) : l <+: b.take n := by
  have ht := List.prefix_iff_eq_take.mp h
  rw [List.prefix_iff_eq_take, List.take_take, min_eq_left hn]
  exact ht

/-- A straddling occurrence `l1 ++ l2 = lit` with `l1` a suffix of
`a = x ++ tail` is refuted by per-length checks against the closed `tail`. -/
theorem straddle_left_tail {lit a x tail : List Char} (ha : a = x ++ tail)
    (hk : ∀ k, 1 ≤ k → k < lit.length →
      (k ≤ tail.length → ¬ ((lit.take k) <:+ tail)) ∧
      (tail.length < k → ¬ (tail <:+ lit.take k))) :
    ∀ l1 l2, lit = l1 ++ l2 → l1 ≠ [] → l2 ≠ [] → l1 <:+ a → False := by
  intro l1 l2 hl h1n h2n hsuf
  have hl1 : l1 = lit.take l1.length := by
    rw [hl, List.take_left]
  have hlen1 : 1 ≤ l1.length := by
    cases l1 with
    | nil => exact absurd rfl h1n
    | cons _ _ => simp
  have hlen2 : l1.length < lit.length := by
    rw [hl, List.length_append]
    cases l2 with
    | nil => exact absurd rfl h2n
    | cons _ _ => simp
  obtain ⟨hlo, hhi⟩ := hk l1.length hlen1 hlen2
  have htsuf : tail <:+ a := ha ▸ ⟨x, rfl⟩
  rcases le_or_lt l1.length tail.length with hle | hgt
  · exact hlo hle (hl1 ▸ suffix_of_suffix_length_le hsuf htsuf hle)
  · exact hhi hgt (hl1 ▸ suffix_of_suffix_length_le htsuf hsuf (by omega))

/-- A straddling occurrence `l1 ++ l2 = lit` with `l2` a prefix of
`b = lead ++ y` is refuted by per-length checks against the closed
`lead`. -/
theorem straddle_right_lead {lit b lead y : List Char} (hb : b = lead ++ y)
    (hk : ∀ k, 1 ≤ k → k < lit.length →
      (lit.length - k ≤ lead.length → ¬ ((lit.drop k) <+: lead)) ∧
      (lead.length < lit.length - k → ¬ (lead <+: lit.drop k))) :
    ∀ l1 l2, lit = l1 ++ l2 → l1 ≠ [] → l2 ≠ [] → l2 <+: b → False := by
  intro l1 l2 hl h1n h2n hpre
  have hl2 : l2 = lit.drop l1.length := by
    rw [hl, List.drop_left]
  have hlen1 : 1 ≤ l1.length := by
    cases l1 with
    | nil => exact absurd rfl h1n
    | cons _ _ => simp
  have hlen2 : l1.length < lit.length := by
    rw [hl, List.length_append]
    cases l2 with
    | nil => exact absurd rfl h2n
    | cons _ _ => simp
  have hl2len : l2.length = lit.length - l1.length := by
    rw [hl2, List.length_drop]
  obtain ⟨hlo, hhi⟩ := hk l1.length hlen1 hlen2
  have hlpre : lead <+: b := hb ▸ List.prefix_append lead y
  rcases le_or_lt l2.length lead.length with hle | hgt
  · exact hlo (by omega)
      (hl2 ▸ List.prefix_of_prefix_length_le hpre hlpre hle)
  · exact hhi (by omega)
      (hl2 ▸ List.prefix_of_prefix_length_le hlpre hpre (by omega))

/-- Occurrences of a pattern starting with `c` cannot begin at a head
character different from `c`: step lemma for scans. -/
theorem infix_of_infix_cons {l : List Char} {c : Char} {Y : List Char}
    (hhead : l.head? ≠ some c) (h : l <:+: c :: Y) : l <:+: Y := by
  rcases List.infix_cons_iff.mp h with hpre | hinf
  · cases l with
    | nil => exact (List.nil_prefix).isInfix
    | cons a t =>
      have := (List.cons_prefix_cons.mp hpre).1
      exact absurd (by rw [this]; rfl) hhead
  · exact hinf

/-! ### Occurrence lemmas for the section delimiter -/

theorem takeThroughNl_cons_ne {c : Char} {rest : Str} (hc : c ≠ '\n') :
    takeThroughNl (c :: rest) =
      (takeThroughNl rest).map (fun p => (c :: p.1, p.2)) := by
  rw [takeThroughNl.eq_def]
  split
  case _ heq => exact absurd heq (by simp)
  case _ r heq =>
    exact absurd (List.cons.injEq _ _ _ _ ▸ heq).1 hc
  case _ c' r heq =>
    obtain ⟨h1, h2⟩ := List.cons.injEq _ _ _ _ ▸ heq
    rw [h1, h2]

theorem takeThroughNl_append {A r : Str} (hA : '\n' ∉ A) :
    takeThroughNl (A ++ '\n' :: r) = some (A ++ ['\n'], r) := by
  induction A with
  | nil => rfl
  | cons c t ih =>
    have hc : c ≠ '\n' := fun hcc => hA (hcc ▸ List.mem_cons_self c t)
    have ht : '\n' ∉ t := fun hm => hA (List.mem_cons_of_mem c hm)
    rw [List.cons_append, takeThroughNl_cons_ne hc, ih ht]
    simp

theorem prefix_of_delimHead_some {s : Str} {p : Str × Str}
    (h : delimHead s = some p) : ("## r/".toList) <+: s := by
  rw [delimHead] at h
  by_cases hp : ("## r/".toList).isPrefixOf s
  · exact List.isPrefixOf_iff_prefix.mp hp
  · rw [if_neg hp] at h
    exact absurd h (by simp)

theorem findDelim_none_of_not_infix {s : Str}
    (h : ¬ (("## r/".toList) <:+: s)) : findDelim s = none := by
  induction s with
  | nil => rfl
  | cons c rest ih =>
    rw [findDelim]
    have hd : delimHead (c :: rest) = none := by
      cases hdh : delimHead (c :: rest) with
      | none => rfl
      | some p =>
        exact absurd (prefix_of_delimHead_some hdh).isInfix h
    rw [hd]
    have : ¬ (("## r/".toList) <:+: rest) :=
      fun hc => h (hc.trans (List.infix_cons (List.infix_refl rest)))
    rw [ih this]
    rfl

/-- `findDelim` skips a block `a` free of delimiter-start occurrences (a
match reaching into `b` uses at most its first four characters). -/
theorem findDelim_skip : ∀ {a b : Str},
    ¬ (("## r/".toList) <:+: a ++ b.take 4) →
    findDelim (a ++ b) =
      (findDelim b).map (fun p => (a ++ p.1, p.2.1, p.2.2)) := by
  intro a
  induction a with
  | nil =>
    intro b _
    simp only [List.nil_append]
    cases hf : findDelim b with
    | none => simp
    | some p => simp
  | cons c a' ih =>
    intro b hocc
    rw [List.cons_append, findDelim]
    have hd : delimHead (c :: (a' ++ b)) = none := by
      cases hdh : delimHead (c :: (a' ++ b)) with
      | none => rfl
      | some p =>
        have hpre := prefix_of_delimHead_some hdh
        rw [← List.cons_append] at hpre
        exfalso
        rcases prefix_append_cases hpre with h1 | ⟨l2, hl2, hl2b⟩
        · exact hocc ((h1.isInfix).trans (List.prefix_append _ _).isInfix)
        · have hlen : l2.length ≤ 4 := by
            have := congrArg List.length hl2
            simp at this
            omega
          have hl2b4 : l2 <+: b.take 4 := prefix_take_of_prefix hl2b hlen
          have : ("## r/".toList) <+: (c :: a') ++ b.take 4 := by
            rw [hl2]
            exact prefix_mono_left hl2b4
          exact hocc this.isInfix
    rw [hd]
    have hocc' : ¬ (("## r/".toList) <:+: a' ++ b.take 4) := fun hc =>
      hocc (hc.trans (List.infix_cons (List.infix_refl _)))
    rw [ih hocc']
    cases findDelim b with
    | none => rfl
    | some p => simp

/-! ### Character-class facts about the printed number and date fields -/

theorem intToStr_chars (i : Int) :
    ∀ ch ∈ intToStr i, ch.isDigit = true ∨ ch = '-' := by
  intro ch hch
  rw [intToStr] at hch
  by_cases hi : i < 0
  · rw [if_pos hi] at hch
    rcases List.mem_cons.mp hch with h | h
    · right; exact h
    · left; exact natToStr_digits _ ch h
  · rw [if_neg hi] at hch
    left; exact natToStr_digits _ ch hch

theorem daysInMonth_le (y m : Nat) : daysInMonth y m ≤ 31 := by
  rw [daysInMonth]
  split
  · split <;> omega
  · split <;> omega

/-- Field bounds of any computed local date. -/
theorem localDate_bounds (off ts : Int) :
    1 ≤ (localDate off ts).1 ∧
    1 ≤ (localDate off ts).2.1 ∧ (localDate off ts).2.1 ≤ 12 ∧
    1 ≤ (localDate off ts).2.2 ∧ (localDate off ts).2.2 ≤ 31 := by
  have h := dateOfDayNum_spec
    (((ts + off).ediv 86400 + (epochShift : Int)).toNat)
  have hdm := daysInMonth_le
    (dateOfDayNum (((ts + off).ediv 86400 + (epochShift : Int)).toNat)).1
    (dateOfDayNum (((ts + off).ediv 86400 + (epochShift : Int)).toNat)).2.1
  rw [localDate]
  exact ⟨h.2.1, h.2.2.1, h.2.2.2.1, h.2.2.2.2.1,
    le_trans h.2.2.2.2.2 hdm⟩

theorem dateStr_chars (off ts : Int) :
    ∀ ch ∈ dateStr off ts, ch.isDigit = true ∨ ch = '-' := by
  intro ch hch
  obtain ⟨hy, hm1, hm2, hd1, hd2⟩ := localDate_bounds off ts
  simp only [dateStr, List.mem_append, List.mem_singleton] at hch
  rcases hch with ((((h | h) | h) | h) | h)
  · left; exact natToStr_digits _ ch h
  · right; exact h
  · left; exact (pad2_spec (by omega)).2.1 ch h
  · right; exact h
  · left; exact (pad2_spec (by omega)).2.1 ch h

theorem no_delim_in_digitish {s : Str}
    (h : ∀ ch ∈ s, ch.isDigit = true ∨ ch = '-') :
    ¬ (("## r/".toList) <:+: s) := by
  intro hinf
  have hm : '#' ∈ s := hinf.subset (by decide)
  rcases h '#' hm with hd | hd
  · exact absurd hd (by decide)
  · exact absurd hd (by decide)

theorem nl_not_mem_natToStr (n : Nat) : '\n' ∉ natToStr n := fun hm => by
  have := natToStr_digits n '\n' hm
  exact absurd this (by decide)

/-- Appending the newline the writer places after the body does not change
the stripped body. -/
theorem pyStrip_append_nl {b : Str} (h : pyStrip b = b) :
    pyStrip (b ++ ['\n']) = b := by
  cases b with
  | nil => rfl
  | cons c t =>
    obtain ⟨h1, h2⟩ := pyStrip_eq_self_inv h
    have hc : pyIsSpace c = false := dropWhile_fixed_head h1
    rw [pyStrip, List.cons_append, dropWhile_cons_false hc,
      ← List.cons_append, List.reverse_append]
    have hrev : (['\n'].reverse : Str) ++ (c :: t).reverse =
        '\n' :: (c :: t).reverse := by simp
    rw [hrev, List.dropWhile_cons]
    have hnl : pyIsSpace '\n' = true := by decide
    rw [hnl, if_pos rfl, h2, List.reverse_reverse]

/-- `findStop` on a written block body: the leftmost `\n---` begins at the
second newline of the `\n\n---\n\n` separator. -/
theorem findStop_blocks {body rest : Str}
    (hinf : ¬ (("\n---".toList) <:+: body)) :
    findStop (body ++ (("\n\n---\n\n".toList) ++ rest)) =
      some (body ++ ['\n'], ("\n---\n\n".toList) ++ rest) := by
  induction body with
  | nil => rfl
  | cons c body' ih =>
    have hnp : ¬ (("\n---".toList) <+:
        (c :: body') ++ (("\n\n---\n\n".toList) ++ rest)) := by
      intro hp
      rcases prefix_append_cases hp with h1 | ⟨l2, heq, hl2X⟩
      · exact hinf h1.isInfix
      · by_cases hl2e : l2 = []
        · rw [hl2e, List.append_nil] at heq
          exact hinf (heq ▸ List.infix_refl _)
        · exact straddle_right_lead rfl
            (by decide) (c :: body') l2 heq (by simp) hl2e hl2X
    rw [List.cons_append, findStop,
      isPrefixOf_false_of_not_prefix (by rw [← List.cons_append]; exact hnp)]
    have hinf' : ¬ (("\n---".toList) <:+: body') := fun hc =>
      hinf (hc.trans (List.infix_cons (List.infix_refl _)))
    rw [ih hinf']
    simp

/-! ### The delimiter and header matchers on written sections -/

theorem isPrefixOf_append_self (l X : Str) :
    (l.isPrefixOf (l ++ X)) = true :=
  List.isPrefixOf_iff_prefix.mpr (List.prefix_append l X)

theorem list_isEmpty_false {α : Type} {l : List α} (h : l ≠ []) :
    l.isEmpty = false := by
  cases l with
  | nil => exact absurd rfl h
  | cons _ _ => rfl

theorem delimHead_hdr {comments : List Comment} {sub X : Str}
    (hne : sub ≠ []) (hwc : ∀ ch ∈ sub, isWordChar ch = true) :
    delimHead (hdrStr comments sub ++ X) =
      some (hdrStr comments sub, X) := by
  have hlit : ((" comments)\n".toList : Str)) = " comments)".toList ++ ['\n'] :=
    rfl
  have hs : hdrStr comments sub ++ X = ("## r/".toList) ++
      (sub ++ (" (".toList ++ (natToStr (subGroup comments sub).length ++
        (" comments)".toList ++ ('\n' :: X))))) := by
    simp [hdrStr, hlit, List.append_assoc]
  rw [hs, delimHead, isPrefixOf_append_self]
  have h5 : (("## r/".toList) ++
      (sub ++ (" (".toList ++ (natToStr (subGroup comments sub).length ++
        (" comments)".toList ++ ('\n' :: X)))))).drop 5 =
      sub ++ (" (".toList ++ (natToStr (subGroup comments sub).length ++
        (" comments)".toList ++ ('\n' :: X)))) := by
    rw [show (5 : Nat) = ("## r/".toList : Str).length from rfl,
      List.drop_left]
  rw [if_pos rfl, h5]
  obtain ⟨ch, subt, hsub⟩ : ∃ ch subt, sub = ch :: subt := by
    cases sub with
    | nil => exact absurd rfl hne
    | cons a b => exact ⟨a, b, rfl⟩
  have hwch : isWordChar ch = true := hwc ch (hsub ▸ List.mem_cons_self _ _)
  have hA : sub ++ (" (".toList ++ (natToStr (subGroup comments sub).length ++
      (" comments)".toList ++ ('\n' :: X)))) =
      (sub ++ (" (".toList ++ (natToStr (subGroup comments sub).length ++
        " comments)".toList))) ++ ('\n' :: X) := by
    simp [List.append_assoc]
  have hnlA : '\n' ∉ sub ++ (" (".toList ++
      (natToStr (subGroup comments sub).length ++ " comments)".toList)) := by
    intro hm
    simp only [List.mem_append] at hm
    rcases hm with h | h | h | h
    · have := hwc '\n' h
      exact absurd this (by decide)
    · exact absurd h (by decide)
    · exact nl_not_mem_natToStr _ h
    · exact absurd h (by decide)
  rw [hsub, List.cons_append]
  show (if isWordChar ch = true then
      (takeThroughNl (ch :: (subt ++ _))).map
        (fun p => (("## r/".toList) ++ p.1, p.2))
    else none) = _
  rw [if_pos hwch, ← List.cons_append, ← hsub, hA,
    takeThroughNl_append hnlA]
  simp [hdrStr, hlit, List.append_assoc]

theorem findDelim_hdr {comments : List Comment} {sub X : Str}
    (hne : sub ≠ []) (hwc : ∀ ch ∈ sub, isWordChar ch = true) :
    findDelim (hdrStr comments sub ++ X) =
      some ([], hdrStr comments sub, X) := by
  obtain ⟨ch, subt, hsub⟩ : ∃ ch subt, sub = ch :: subt := by
    cases sub with
    | nil => exact absurd rfl hne
    | cons a b => exact ⟨a, b, rfl⟩
  have hcons : hdrStr comments sub ++ X =
      '#' :: (("# r/".toList) ++ (sub ++ (" (".toList ++
        (natToStr (subGroup comments sub).length ++
          (" comments)\n".toList ++ X))))) := by
    simp [hdrStr, List.append_assoc]
  rw [hcons, findDelim, ← hcons, delimHead_hdr hne hwc]

theorem matchHeader_hdr {comments : List Comment} {sub : Str}
    (hne : sub ≠ []) (hwc : ∀ ch ∈ sub, isWordChar ch = true) :
    matchHeader (hdrStr comments sub) = some sub := by
  have hs : hdrStr comments sub = ("## r/".toList) ++
      (sub ++ (' ' :: ('(' :: (natToStr (subGroup comments sub).length ++
        " comments)\n".toList)))) := by
    simp [hdrStr, List.append_assoc]
  rw [hs, matchHeader, isPrefixOf_append_self]
  have h5 : ((("## r/".toList) ++
      (sub ++ (' ' :: ('(' :: (natToStr (subGroup comments sub).length ++
        " comments)\n".toList))))).drop 5) =
      sub ++ (' ' :: ('(' :: (natToStr (subGroup comments sub).length ++
        " comments)\n".toList))) := by
    rw [show (5 : Nat) = ("## r/".toList : Str).length from rfl,
      List.drop_left]
  rw [if_pos rfl]
  simp only [h5]
  obtain ⟨hrun, -⟩ := takeWhile_append_eq (p := isWordChar) hwc
    (by decide : isWordChar ' ' = false)
  rw [hrun, list_isEmpty_false hne]
  simp

/-! ### The comment-block scanner on written blocks -/

theorem prefix_hash_false {c : Char} {rest : Str} (hc : c ≠ '#') :
    (("### Comment (Score: ".toList).isPrefixOf (c :: rest)) = false := by
  rw [Bool.eq_false_iff]
  intro hp
  exact hc (List.cons_prefix_cons.mp (List.isPrefixOf_iff_prefix.mp hp)).1.symm

theorem scanGo_nil (off : Int) (sub : Str) (fuel : Nat) :
    scanGo off sub fuel [] = .ok [] := by
  cases fuel <;> rfl

theorem scanGo_skip (off : Int) (sub : Str) : ∀ (pre s : Str) (fuel : Nat),
    (∀ ch ∈ pre, ch ≠ '#') →
    scanGo off sub (pre.length + fuel) (pre ++ s) = scanGo off sub fuel s := by
  intro pre
  induction pre with
  | nil => intro s fuel _; simp
  | cons c pre' ih =>
    intro s fuel hch
    have hc : c ≠ '#' := hch c (List.mem_cons_self _ _)
    rw [List.cons_append, List.length_cons,
      show pre'.length + 1 + fuel = (pre'.length + fuel) + 1 from by omega,
      scanGo, prefix_hash_false hc]
    simp only [Bool.false_eq_true, if_false]
    exact ih s fuel (fun ch h => hch ch (List.mem_cons_of_mem c h))

theorem scanGo_match (off : Int) (sub : Str) (fuel : Nat) {s after : Str}
    {cap : CommentCap} {cm : Comment} {cs : List Comment}
    (hpre : (("### Comment (Score: ".toList).isPrefixOf s) = true)
    (htry : tryComment s = some (cap, after))
    (hcap : commentOfCap off sub cap = .ok cm)
    (hrec : scanGo off sub fuel after = .ok cs) :
    scanGo off sub (fuel + 1) s = .ok (cm :: cs) := by
  cases s with
  | nil => exact absurd hpre (by decide)
  | cons c rest =>
    rw [scanGo, hpre]
    simp only [if_true, htry, hcap, hrec]

theorem bne_rparen_true {ch : Char} (h : ch ≠ ')') : (ch != ')') = true := by
  rw [bne_iff_ne]
  exact h

theorem digit_ne_dash {ch : Char} (h : ch.isDigit = true) : ch ≠ '-' := by
  intro he
  rw [he] at h
  exact absurd h (by decide)

/-- `strptime` applied to the printed local date returns local midnight. -/
theorem strptime_localDate (off ts : Int)
    (h0 : 0 ≤ (ts + off).ediv 86400 + (epochShift : Int)) :
    strptimeTs off (localDate off ts).1 (localDate off ts).2.1
      (localDate off ts).2.2 = .ok (localMidnight off ts) := by
  have hs := dateOfDayNum_spec
    (((ts + off).ediv 86400 + (epochShift : Int)).toNat)
  simp only [localDate]
  rw [strptimeTs, if_pos ⟨hs.2.1, hs.2.2.1, hs.2.2.2.1, hs.2.2.2.2.1,
    hs.2.2.2.2.2⟩, hs.1, Int.toNat_of_nonneg h0, localMidnight]
  congr 1
  ring

/-- One written comment block parses back to its day-normalized comment:
`tryComment` captures every field and stops exactly at the block
separator. -/
theorem block_step (off : Int) (c : Comment) (R : Str)
    (hw : writableComment off c) :
    ∃ cap, tryComment (commentBlock off c ++ R) =
        some (cap, ("\n---\n\n".toList) ++ R) ∧
      commentOfCap off c.subreddit cap = .ok (dayNormalize off c) := by
  obtain ⟨hstrip, hbstop, hbdelim, hsne, hswc, hpfx, htne, htnp, htdelim,
    h0, hy1, hy2⟩ := hw
  obtain ⟨tl, htl⟩ := hpfx
  have htl8 : c.permalink.drop 8 = tl := by
    rw [← htl, show (8 : Nat) = ("https://".toList : Str).length from rfl,
      List.drop_left]
  have hperm : c.permalink = ("https://".toList) ++ tl := htl.symm
  rw [htl8] at htne htnp htdelim
  have hform : commentBlock off c ++ R =
      ("### Comment (Score: ".toList) ++ (intToStr c.score ++
        ((")\n**Date:** ".toList) ++ (dateStr off c.created_utc ++
          (("\n**Link:** [View on Reddit](".toList) ++ (c.permalink ++
            ((")\n\n".toList) ++ (c.body ++
              (("\n\n---\n\n".toList) ++ R)))))))) := by
    simp [commentBlock, List.append_assoc]
  rw [hform]
  simp only [tryComment]
  rw [List.drop_left' (by rfl : ("### Comment (Score: ".toList : Str).length = 20)]
  by_cases hneg : c.score < 0
  · have hi : intToStr c.score = '-' :: natToStr c.score.natAbs := by
      rw [intToStr, if_pos hneg]
    rw [hi, List.cons_append]
    simp only [if_pos (rfl : '-' = '-'), if_true]
    have hsp1 : ∀ Y : Str, ((")\n**Date:** ".toList : Str)) ++ Y =
        ')' :: '\n' :: (("**Date:** ".toList) ++ Y) := fun Y => rfl
    rw [hsp1]
    obtain ⟨htw, -⟩ := takeWhile_append_eq (p := Char.isDigit)
      (natToStr_digits c.score.natAbs) (by decide : Char.isDigit ')' = false)
    rw [htw, list_isEmpty_false (natToStr_ne_nil _)]
    simp only [Bool.false_eq_true, if_false, List.drop_left]
    rw [isPrefixOf_append_self, if_pos rfl,
      List.drop_left' (by rfl : ("**Date:** ".toList : Str).length = 10)]
    have hdsplit : ∀ Y : Str, dateStr off c.created_utc ++ Y =
        natToStr (localDate off c.created_utc).1 ++ ('-' ::
          (pad2 (localDate off c.created_utc).2.1 ++ ('-' ::
            (pad2 (localDate off c.created_utc).2.2 ++ Y)))) := by
      intro Y
      simp [dateStr, List.append_assoc]
    rw [hdsplit]
    obtain ⟨hyb, hm1, hm2, hd1, hd2⟩ := localDate_bounds off c.created_utc
    rw [takeDigits_append (natToStr_len4 hy1 hy2) (natToStr_digits _)]
    simp only []
    rw [takeDigits_append ((pad2_spec (by omega :
      (localDate off c.created_utc).2.1 ≤ 99)).1)
      ((pad2_spec (by omega : (localDate off c.created_utc).2.1 ≤ 99)).2.1)]
    simp only []
    rw [takeDigits_append ((pad2_spec (by omega :
      (localDate off c.created_utc).2.2 ≤ 99)).1)
      ((pad2_spec (by omega : (localDate off c.created_utc).2.2 ≤ 99)).2.1)]
    simp only []
    have hsp3 : ∀ Y : Str, (("\n**Link:** [View on Reddit](".toList : Str)) ++ Y =
        '\n' :: (("**Link:** [View on Reddit](".toList) ++ Y) := fun Y => rfl
    rw [hsp3]
    simp only []
    rw [isPrefixOf_append_self, if_pos rfl,
      List.drop_left' (by rfl :
        ("**Link:** [View on Reddit](".toList : Str).length = 27)]
    rw [hperm, List.append_assoc, isPrefixOf_append_self, if_pos rfl,
      List.drop_left' (by rfl : ("https://".toList : Str).length = 8)]
    have hsp2 : ∀ Y : Str, ((")\n\n".toList : Str)) ++ Y =
        ')' :: '\n' :: '\n' :: Y := fun Y => rfl
    rw [hsp2]
    obtain ⟨htw2, -⟩ := takeWhile_append_eq (p := fun ch => ch != ')')
      (fun ch h => bne_rparen_true (fun he => htnp (he ▸ h)))
      (by decide : ((')' : Char) != ')') = false)
    rw [htw2, list_isEmpty_false htne]
    simp only [Bool.false_eq_true, if_false, List.drop_left]
    rw [findStop_blocks hbstop]
    simp only [natToStr_val,
      (pad2_spec (by omega : (localDate off c.created_utc).2.1 ≤ 99)).2.2,
      (pad2_spec (by omega : (localDate off c.created_utc).2.2 ≤ 99)).2.2]
    refine ⟨_, rfl, ?_⟩
    rw [commentOfCap]
    simp only []
    rw [strptime_localDate off c.created_utc h0]
    simp only [if_true]
    rw [pyStrip_append_nl hstrip, natToStr_val]
    have hscore : -((c.score.natAbs : Int)) = c.score := by omega
    rw [hscore, ← hperm]
    rfl
  · have hi : intToStr c.score = natToStr c.score.toNat := by
      rw [intToStr, if_neg hneg]
    obtain ⟨hd, tl2, hnt⟩ : ∃ hd t2, natToStr c.score.toNat = hd :: t2 := by
      cases hh : natToStr c.score.toNat with
      | nil => exact absurd hh (natToStr_ne_nil _)
      | cons a b => exact ⟨a, b, rfl⟩
    have hhd : hd.isDigit = true :=
      natToStr_digits _ hd (hnt ▸ List.mem_cons_self _ _)
    rw [hi, hnt, List.cons_append]
    simp only [if_neg (digit_ne_dash hhd)]
    rw [← List.cons_append, ← hnt]
    have hsp1 : ∀ Y : Str, ((")\n**Date:** ".toList : Str)) ++ Y =
        ')' :: '\n' :: (("**Date:** ".toList) ++ Y) := fun Y => rfl
    rw [hsp1]
    obtain ⟨htw, -⟩ := takeWhile_append_eq (p := Char.isDigit)
      (natToStr_digits c.score.toNat) (by decide : Char.isDigit ')' = false)
    rw [htw, list_isEmpty_false (natToStr_ne_nil _)]
    simp only [Bool.false_eq_true, if_false, List.drop_left]
    rw [isPrefixOf_append_self, if_pos rfl,
      List.drop_left' (by rfl : ("**Date:** ".toList : Str).length = 10)]
    have hdsplit : ∀ Y : Str, dateStr off c.created_utc ++ Y =
        natToStr (localDate off c.created_utc).1 ++ ('-' ::
          (pad2 (localDate off c.created_utc).2.1 ++ ('-' ::
            (pad2 (localDate off c.created_utc).2.2 ++ Y)))) := by
      intro Y
      simp [dateStr, List.append_assoc]
    rw [hdsplit]
    obtain ⟨hyb, hm1, hm2, hd1, hd2⟩ := localDate_bounds off c.created_utc
    rw [takeDigits_append (natToStr_len4 hy1 hy2) (natToStr_digits _)]
    simp only []
    rw [takeDigits_append ((pad2_spec (by omega :
      (localDate off c.created_utc).2.1 ≤ 99)).1)
      ((pad2_spec (by omega : (localDate off c.created_utc).2.1 ≤ 99)).2.1)]
    simp only []
    rw [takeDigits_append ((pad2_spec (by omega :
      (localDate off c.created_utc).2.2 ≤ 99)).1)
      ((pad2_spec (by omega : (localDate off c.created_utc).2.2 ≤ 99)).2.1)]
    simp only []
    have hsp3 : ∀ Y : Str, (("\n**Link:** [View on Reddit](".toList : Str)) ++ Y =
        '\n' :: (("**Link:** [View on Reddit](".toList) ++ Y) := fun Y => rfl
    rw [hsp3]
    simp only []
    rw [isPrefixOf_append_self, if_pos rfl,
      List.drop_left' (by rfl :
        ("**Link:** [View on Reddit](".toList : Str).length = 27)]
    rw [hperm, List.append_assoc, isPrefixOf_append_self, if_pos rfl,
      List.drop_left' (by rfl : ("https://".toList : Str).length = 8)]
    have hsp2 : ∀ Y : Str, ((")\n\n".toList : Str)) ++ Y =
        ')' :: '\n' :: '\n' :: Y := fun Y => rfl
    rw [hsp2]
    obtain ⟨htw2, -⟩ := takeWhile_append_eq (p := fun ch => ch != ')')
      (fun ch h => bne_rparen_true (fun he => htnp (he ▸ h)))
      (by decide : ((')' : Char) != ')') = false)
    rw [htw2, list_isEmpty_false htne]
    simp only [Bool.false_eq_true, if_false, List.drop_left]
    rw [findStop_blocks hbstop]
    simp only [natToStr_val,
      (pad2_spec (by omega : (localDate off c.created_utc).2.1 ≤ 99)).2.2,
      (pad2_spec (by omega : (localDate off c.created_utc).2.2 ≤ 99)).2.2]
    refine ⟨_, rfl, ?_⟩
    rw [commentOfCap]
    simp only []
    rw [strptime_localDate off c.created_utc h0]
    simp only [Bool.false_eq_true, if_false]
    rw [pyStrip_append_nl hstrip, natToStr_val]
    have hscore : ((c.score.toNat : Int)) = c.score :=
      Int.toNat_of_nonneg (by omega)
    rw [hscore, ← hperm]
    rfl

theorem commentBlock_len (off : Int) (c : Comment) :
    7 ≤ (commentBlock off c).length := by
  simp [commentBlock, List.length_append]

theorem blocks_len (off : Int) : ∀ cs : List Comment,
    7 * cs.length ≤ ((cs.map (commentBlock off)).flatten).length := by
  intro cs
  induction cs with
  | nil => simp
  | cons c cs ih =>
    simp only [List.map_cons, List.flatten_cons, List.length_append,
      List.length_cons]
    have := commentBlock_len off c
    omega

/-- The scanner over a concatenation of written blocks returns exactly the
day-normalized comments, in order. -/
theorem scan_blocks (off : Int) (sub : Str) : ∀ (cs : List Comment)
    (fuel : Nat),
    (∀ c ∈ cs, writableComment off c ∧ c.subreddit = sub) →
    7 * cs.length ≤ fuel →
    scanGo off sub fuel ((cs.map (commentBlock off)).flatten) =
      .ok (cs.map (dayNormalize off)) := by
  intro cs
  induction cs with
  | nil =>
    intro fuel _ _
    simp only [List.map_nil, List.flatten_nil]
    exact scanGo_nil off sub fuel
  | cons c cs ih =>
    intro fuel hall hfuel
    obtain ⟨hw, hsub⟩ := hall c (List.mem_cons_self _ _)
    obtain ⟨cap, htry, hcap⟩ :=
      block_step off c ((cs.map (commentBlock off)).flatten) hw
    rw [hsub] at hcap
    obtain ⟨f, rfl⟩ : ∃ f, fuel = f + 1 :=
      ⟨fuel - 1, by simp at hfuel; omega⟩
    simp only [List.map_cons, List.flatten_cons]
    have hcb : commentBlock off c = ("### Comment (Score: ".toList) ++
        (intToStr c.score ++ ((")\n**Date:** ".toList) ++
          (dateStr off c.created_utc ++
            (("\n**Link:** [View on Reddit](".toList) ++ (c.permalink ++
              ((")\n\n".toList) ++ (c.body ++
                ("\n\n---\n\n".toList)))))))) := by
      simp [commentBlock, List.append_assoc]
    have hpre : (("### Comment (Score: ".toList).isPrefixOf
        (commentBlock off c ++ ((cs.map (commentBlock off)).flatten))) =
        true := by
      rw [hcb, List.append_assoc]
      exact isPrefixOf_append_self _ _
    simp only [List.length_cons] at hfuel
    have hskip : scanGo off sub f
        (("\n---\n\n".toList) ++ (cs.map (commentBlock off)).flatten) =
        scanGo off sub (f - 6) ((cs.map (commentBlock off)).flatten) := by
      conv_lhs => rw [show f = ("\n---\n\n".toList : Str).length + (f - 6)
        from by
          rw [show (("\n---\n\n".toList : Str).length) = 6 from rfl]
          omega]
      exact scanGo_skip off sub _ _ _ (by decide)
    have hrec : scanGo off sub f
        (("\n---\n\n".toList) ++ (cs.map (commentBlock off)).flatten) =
        .ok (cs.map (dayNormalize off)) := by
      rw [hskip]
      exact ih (f - 6) (fun c' h => hall c' (List.mem_cons_of_mem _ h))
        (by omega)
    exact scanGo_match off sub f hpre htry hcap hrec

/-- The per-section scan on a written section remainder. -/
theorem scanComments_tail (off : Int) (comments : List Comment) (sub : Str)
    (hall : ∀ c ∈ subGroup comments sub, writableComment off c) :
    scanComments off sub (tailStr off comments sub) =
      .ok ((subGroup comments sub).map (dayNormalize off)) := by
  have hmem : ∀ c ∈ subGroup comments sub,
      writableComment off c ∧ c.subreddit = sub := by
    intro c hc
    refine ⟨hall c hc, ?_⟩
    have := List.of_mem_filter hc
    simpa using this
  rw [scanComments, tailStr, List.length_append,
    scanGo_skip off sub _ _ _ (by decide)]
  exact scan_blocks off sub _ _ hmem (blocks_len off _)

theorem matchHeader_tail_none (off : Int) (comments : List Comment)
    (sub : Str) : matchHeader (tailStr off comments sub) = none := rfl

/-- The section loop over the split pieces yields the grouped,
day-normalized comments in section order. -/
theorem processSections_pieces (off : Int) (comments : List Comment) :
    ∀ (subs : List Str) (cur : Option Str),
    (∀ sub ∈ subs, sub ≠ [] ∧ (∀ ch ∈ sub, isWordChar ch = true) ∧
      (∀ c ∈ subGroup comments sub, writableComment off c)) →
    processSections off cur (sectionPieces off comments subs) =
      .ok ((subs.map (fun sub =>
        (subGroup comments sub).map (dayNormalize off))).flatten) := by
  intro subs
  induction subs with
  | nil => intro cur _; rfl
  | cons sub rest ih =>
    intro cur hall
    obtain ⟨hne, hwc, hwr⟩ := hall sub (List.mem_cons_self _ _)
    simp only [sectionPieces, processSections, matchHeader_hdr hne hwc,
      matchHeader_tail_none off comments sub,
      scanComments_tail off comments sub hwr,
      ih (some sub) (fun s h => hall s (List.mem_cons_of_mem _ h))]
    simp

/-- A written section is its header line plus its remainder. -/
theorem sectionText_split (off : Int) (comments : List Comment) (sub : Str) :
    sectionText off comments sub =
      hdrStr comments sub ++ tailStr off comments sub := by
  have hlit : ((" comments)\n\n".toList : Str)) =
      (" comments)\n".toList) ++ ("\n".toList) := rfl
  simp [sectionText, hdrStr, tailStr, subGroup, hlit, List.append_assoc]

theorem sectionsText_take4 (off : Int) (comments : List Comment)
    (sub : Str) (rest : List Str) :
    (sectionsText off comments (sub :: rest)).take 4 = ("## r".toList) := by
  rw [sectionsText]
  simp only [List.map_cons, List.flatten_cons, sectionText_split, hdrStr,
    List.append_assoc]
  rw [List.take_append_eq_append_take,
    show (("## r/".toList : Str)).take 4 = ("## r".toList) from rfl,
    show (4 : Nat) - (("## r/".toList : Str)).length = 0 from rfl,
    List.take_zero, List.append_nil]

/-- `re.split` on the written document: the preamble piece, then header and
remainder pieces for each section. -/
theorem reSplitGo_sections (off : Int) (comments : List Comment) :
    ∀ (subs : List Str) (fuel : Nat) (pre : Str),
    subs.length + 1 ≤ fuel →
    ¬ (("## r/".toList) <:+:
      pre ++ (sectionsText off comments subs).take 4) →
    (∀ sub ∈ subs, sub ≠ [] ∧ (∀ ch ∈ sub, isWordChar ch = true) ∧
      ¬ (("## r/".toList) <:+:
        tailStr off comments sub ++ ("## r".toList))) →
    reSplitGo fuel (pre ++ sectionsText off comments subs) =
      pre :: sectionPieces off comments subs := by
  intro subs
  induction subs with
  | nil =>
    intro fuel pre hfuel hpre _
    have hempty : sectionsText off comments [] = [] := rfl
    rw [hempty, List.append_nil]
    rw [hempty] at hpre
    simp only [List.take_nil, List.append_nil] at hpre
    obtain ⟨f, rfl⟩ : ∃ f, fuel = f + 1 := ⟨fuel - 1, by omega⟩
    rw [reSplitGo, findDelim_none_of_not_infix hpre]
    rfl
  | cons sub rest ih =>
    intro fuel pre hfuel hall'
    intro hall
    obtain ⟨hne, hwc, htail⟩ := hall sub (List.mem_cons_self _ _)
    obtain ⟨f, rfl⟩ : ∃ f, fuel = f + 1 := ⟨fuel - 1, by omega⟩
    have hsec : sectionsText off comments (sub :: rest) =
        hdrStr comments sub ++ (tailStr off comments sub ++
          sectionsText off comments rest) := by
      rw [sectionsText]
      simp only [List.map_cons, List.flatten_cons, sectionText_split,
        List.append_assoc]
      rfl
    rw [reSplitGo, hsec, findDelim_skip (by rw [← hsec]; exact hall'),
      findDelim_hdr hne hwc]
    simp only [Option.map_some', List.append_nil]
    have hpre' : ¬ (("## r/".toList) <:+: tailStr off comments sub ++
        (sectionsText off comments rest).take 4) := by
      cases rest with
      | nil =>
        intro hc
        rw [show sectionsText off comments ([] : List Str) = [] from rfl]
          at hc
        simp only [List.take_nil, List.append_nil] at hc
        exact htail (hc.trans (List.prefix_append _ _).isInfix)
      | cons s2 r2 =>
        rw [sectionsText_take4]
        exact htail
    rw [ih f (tailStr off comments sub) (by simp at hfuel; omega) hpre'
      (fun s h => hall s (List.mem_cons_of_mem _ h))]
    rfl

/-! ### The first-seen subreddit grouping is a permutation -/

theorem foldl_subs_mono : ∀ (l : List Comment) (acc : List Str) (x : Str),
    x ∈ acc →
    x ∈ l.foldl (fun acc c =>
      if c.subreddit ∈ acc then acc else acc ++ [c.subreddit]) acc := by
  intro l
  induction l with
  | nil => intro acc x h; exact h
  | cons c l ih =>
    intro acc x h
    rw [List.foldl_cons]
    apply ih
    by_cases hc : c.subreddit ∈ acc
    · rw [if_pos hc]; exact h
    · rw [if_neg hc]; exact List.mem_append_left _ h

theorem mem_foldl_subs : ∀ (l : List Comment) (acc : List Str) (c : Comment),
    c ∈ l →
    c.subreddit ∈ l.foldl (fun acc c =>
      if c.subreddit ∈ acc then acc else acc ++ [c.subreddit]) acc := by
  intro l
  induction l with
  | nil => intro acc c h; exact absurd h (List.not_mem_nil c)
  | cons c0 l ih =>
    intro acc c h
    rw [List.foldl_cons]
    rcases List.mem_cons.mp h with h | h
    · subst h
      apply foldl_subs_mono
      by_cases hc : c.subreddit ∈ acc
      · rw [if_pos hc]; exact hc
      · rw [if_neg hc]
        exact List.mem_append_right _ (List.mem_singleton_self _)
    · exact ih _ c h

theorem foldl_subs_sound : ∀ (l : List Comment) (acc : List Str) (x : Str),
    x ∈ l.foldl (fun acc c =>
      if c.subreddit ∈ acc then acc else acc ++ [c.subreddit]) acc →
    x ∈ acc ∨ ∃ c ∈ l, c.subreddit = x := by
  intro l
  induction l with
  | nil => intro acc x h; exact Or.inl h
  | cons c0 l ih =>
    intro acc x h
    rw [List.foldl_cons] at h
    rcases ih _ x h with hacc | ⟨c, hc, he⟩
    · by_cases hc : c0.subreddit ∈ acc
      · rw [if_pos hc] at hacc
        exact Or.inl hacc
      · rw [if_neg hc] at hacc
        rcases List.mem_append.mp hacc with h1 | h1
        · exact Or.inl h1
        · exact Or.inr ⟨c0, List.mem_cons_self _ _,
            (List.mem_singleton.mp h1).symm⟩
    · exact Or.inr ⟨c, List.mem_cons_of_mem _ hc, he⟩

theorem foldl_subs_nodup : ∀ (l : List Comment) (acc : List Str),
    acc.Nodup →
    (l.foldl (fun acc c =>
      if c.subreddit ∈ acc then acc else acc ++ [c.subreddit]) acc).Nodup := by
  intro l
  induction l with
  | nil => intro acc h; exact h
  | cons c0 l ih =>
    intro acc h
    rw [List.foldl_cons]
    apply ih
    by_cases hc : c0.subreddit ∈ acc
    · rw [if_pos hc]; exact h
    · rw [if_neg hc]
      simp [List.nodup_append, h, hc]

theorem firstSeenSubs_nodup (l : List Comment) : (firstSeenSubs l).Nodup :=
  foldl_subs_nodup l [] List.nodup_nil

theorem mem_firstSeenSubs {l : List Comment} {c : Comment} (h : c ∈ l) :
    c.subreddit ∈ firstSeenSubs l :=
  mem_foldl_subs l [] c h

theorem firstSeenSubs_sound {l : List Comment} {x : Str}
    (h : x ∈ firstSeenSubs l) : ∃ c ∈ l, c.subreddit = x := by
  rcases foldl_subs_sound l [] x h with h1 | h2
  · exact absurd h1 (List.not_mem_nil x)
  · exact h2

theorem count_flatten_groups (x : Comment) (l : List Comment) :
    ∀ subs : List Str, subs.Nodup →
    ((x.subreddit ∈ subs →
      ((subs.map (fun sub => l.filter (fun c => c.subreddit == sub))).flatten).count x
        = l.count x) ∧
     (x.subreddit ∉ subs →
      ((subs.map (fun sub => l.filter (fun c => c.subreddit == sub))).flatten).count x
        = 0)) := by
  intro subs
  induction subs with
  | nil =>
    exact fun _ => ⟨fun h => absurd h (List.not_mem_nil _), fun _ => rfl⟩
  | cons s subs ih =>
    intro hnd
    obtain ⟨hs, hnd'⟩ := List.nodup_cons.mp hnd
    obtain ⟨ih1, ih2⟩ := ih hnd'
    constructor
    · intro hmem
      simp only [List.map_cons, List.flatten_cons, List.count_append]
      by_cases he : x.subreddit = s
      · have h1 : (l.filter (fun c => c.subreddit == s)).count x =
            l.count x := List.count_filter (by simp [he])
        have h2 := ih2 (he ▸ hs)
        rw [h1, h2]
        omega
      · have h1 : (l.filter (fun c => c.subreddit == s)).count x = 0 := by
          rw [List.count_eq_zero]
          intro hmemf
          have := List.of_mem_filter hmemf
          simp at this
          exact he this
        rcases List.mem_cons.mp hmem with h | h
        · exact absurd h he
        · rw [h1, ih1 h]
          omega
    · intro hnmem
      have hne : x.subreddit ≠ s := fun he => hnmem (he ▸ List.mem_cons_self _ _)
      have hnm : x.subreddit ∉ subs := fun hm =>
        hnmem (List.mem_cons_of_mem _ hm)
      simp only [List.map_cons, List.flatten_cons, List.count_append]
      have h1 : (l.filter (fun c => c.subreddit == s)).count x = 0 := by
        rw [List.count_eq_zero]
        intro hmemf
        have := List.of_mem_filter hmemf
        simp at this
        exact hne this
      rw [h1, ih2 hnm]

/-- The writer's grouping rearranges the comments without loss or
duplication. -/
theorem grouped_perm (l : List Comment) :
    (((firstSeenSubs l).map
      (fun sub => l.filter (fun c => c.subreddit == sub))).flatten).Perm l := by
  rw [List.perm_iff_count]
  intro x
  by_cases hx : x.subreddit ∈ firstSeenSubs l
  · exact (count_flatten_groups x l (firstSeenSubs l)
      (firstSeenSubs_nodup l)).1 hx
  · rw [(count_flatten_groups x l (firstSeenSubs l)
      (firstSeenSubs_nodup l)).2 hx]
    rw [List.count_eq_zero.mpr (fun hm => hx (mem_firstSeenSubs hm))]

/-! ### The section delimiter occurs only at section headers -/

theorem noDelim_append_lead {a y : Str} (lead : Str)
    (ha : ¬ (("## r/".toList) <:+: a))
    (hy : ¬ (("## r/".toList) <:+: lead ++ y))
    (hk : ∀ k, 1 ≤ k → k < ("## r/".toList : Str).length →
      ((("## r/".toList : Str).length - k ≤ lead.length →
        ¬ (((("## r/".toList : Str)).drop k) <+: lead)) ∧
       (lead.length < ("## r/".toList : Str).length - k →
        ¬ (lead <+: (("## r/".toList : Str)).drop k)))) :
    ¬ (("## r/".toList) <:+: a ++ (lead ++ y)) :=
  not_infix_append ha hy (fun l1 l2 hl h1n h2n _ hpre =>
    straddle_right_lead rfl hk l1 l2 hl h1n h2n hpre)

theorem noDelim_append_tail {tail b : Str}
    (ht : ¬ (("## r/".toList) <:+: tail))
    (hb : ¬ (("## r/".toList) <:+: b))
    (hk : ∀ k, 1 ≤ k → k < ("## r/".toList : Str).length →
      ((k ≤ tail.length →
        ¬ ((("## r/".toList : Str)).take k <:+ tail)) ∧
       (tail.length < k →
        ¬ (tail <:+ (("## r/".toList : Str)).take k)))) :
    ¬ (("## r/".toList) <:+: tail ++ b) :=
  not_infix_append ht hb (fun l1 l2 hl h1n h2n hsuf _ =>
    straddle_left_tail (by simp : tail = ([] : Str) ++ tail) hk
      l1 l2 hl h1n h2n hsuf)

/-- No delimiter occurrence anywhere inside one written comment block. -/
theorem noDelim_block (off : Int) (c : Comment)
    (hbdelim : ¬ (("## r/".toList) <:+: c.body))
    (hpfx : ("https://".toList) <+: c.permalink)
    (htdelim : ¬ (("## r/".toList) <:+: c.permalink.drop 8)) :
    ¬ (("## r/".toList) <:+: commentBlock off c) := by
  obtain ⟨tl, htl⟩ := hpfx
  have htl8 : c.permalink.drop 8 = tl := by
    rw [← htl, show (8 : Nat) = ("https://".toList : Str).length from rfl,
      List.drop_left]
  rw [htl8] at htdelim
  have hcb : commentBlock off c = ("### Comment (Score: ".toList) ++
      (intToStr c.score ++ ((")\n**Date:** ".toList) ++
        (dateStr off c.created_utc ++
          (("\n**Link:** [View on Reddit](".toList) ++ (c.permalink ++
            ((")\n\n".toList) ++ (c.body ++
              ("\n\n---\n\n".toList)))))))) := by
    simp [commentBlock, List.append_assoc]
  rw [hcb]
  apply noDelim_append_tail (by decide) ?_ (by decide)
  apply noDelim_append_lead (")\n**Date:** ".toList)
    (no_delim_in_digitish (intToStr_chars c.score)) ?_ (by decide)
  apply noDelim_append_tail (by decide) ?_ (by decide)
  apply noDelim_append_lead ("\n**Link:** [View on Reddit](".toList)
    (no_delim_in_digitish (dateStr_chars off c.created_utc)) ?_ (by decide)
  apply noDelim_append_tail (by decide) ?_ (by decide)
  apply noDelim_append_lead (")\n\n".toList) ?_ ?_ (by decide)
  · rw [← htl]
    exact noDelim_append_tail (by decide) htdelim (by decide)
  apply noDelim_append_tail (by decide) ?_ (by decide)
  exact not_infix_append hbdelim (by decide)
    (fun l1 l2 hl h1n h2n _ hpre =>
      straddle_right_lead ((List.append_nil ("\n\n---\n\n".toList)).symm)
        (by decide) l1 l2 hl h1n h2n hpre)

/-- No delimiter occurrence in a concatenation of written blocks, even
with the first four characters of a following header appended. -/
theorem noDelim_blocks (off : Int) : ∀ (cs : List Comment),
    (∀ c ∈ cs, ¬ (("## r/".toList) <:+: c.body) ∧
      (("https://".toList) <+: c.permalink) ∧
      ¬ (("## r/".toList) <:+: c.permalink.drop 8)) →
    ¬ (("## r/".toList) <:+:
      ((cs.map (commentBlock off)).flatten) ++ ("## r".toList)) := by
  intro cs
  induction cs with
  | nil =>
    intro _
    simp only [List.map_nil, List.flatten_nil, List.nil_append]
    decide
  | cons c cs ih =>
    intro hall
    obtain ⟨h1, h2, h3⟩ := hall c (List.mem_cons_self _ _)
    simp only [List.map_cons, List.flatten_cons, List.append_assoc]
    refine not_infix_append (noDelim_block off c h1 h2 h3)
      (ih (fun c' h => hall c' (List.mem_cons_of_mem _ h)))
      (fun l1 l2 hl h1n h2n hsuf _ =>
        straddle_left_tail
          (show commentBlock off c = _ ++ ("\n\n---\n\n".toList) from rfl)
          (by decide) l1 l2 hl h1n h2n hsuf)

/-- No delimiter occurrence in a section remainder (with a following
header's start appended). -/
theorem noDelim_tail (off : Int) (comments : List Comment) (sub : Str)
    (hall : ∀ c ∈ subGroup comments sub,
      ¬ (("## r/".toList) <:+: c.body) ∧
      (("https://".toList) <+: c.permalink) ∧
      ¬ (("## r/".toList) <:+: c.permalink.drop 8)) :
    ¬ (("## r/".toList) <:+:
      tailStr off comments sub ++ ("## r".toList)) := by
  rw [tailStr]
  intro hc
  rw [List.append_assoc] at hc
  exact noDelim_blocks off (subGroup comments sub) hall
    (infix_of_infix_cons (by decide) hc)

/-- No delimiter occurrence in the written preamble. -/
theorem noDelim_preamble (genTime : Str) (comments : List Comment)
    (username : Str)
    (hu : ¬ (("## r/".toList) <:+: username))
    (hg : ¬ (("## r/".toList) <:+: genTime)) :
    ¬ (("## r/".toList) <:+: preambleStr genTime comments username) := by
  have hp : preambleStr genTime comments username =
      ("# Reddit Comments Analysis: u/".toList) ++ (username ++
        (("\n\n**Generated:** ".toList) ++ (genTime ++
          (("\n**Total Comments:** ".toList) ++ (natToStr comments.length ++
            ("\n\n".toList)))))) := by
    simp [preambleStr, List.append_assoc]
  rw [hp]
  apply noDelim_append_tail (by decide) ?_ (by decide)
  apply noDelim_append_lead ("\n\n**Generated:** ".toList) hu ?_ (by decide)
  apply noDelim_append_tail (by decide) ?_ (by decide)
  apply noDelim_append_lead ("\n**Total Comments:** ".toList) hg ?_
    (by decide)
  apply noDelim_append_tail (by decide) ?_ (by decide)
  exact not_infix_append
    (no_delim_in_digitish (fun ch h => Or.inl (natToStr_digits _ ch h)))
    (by decide)
    (fun l1 l2 hl h1n h2n _ hpre =>
      straddle_right_lead ((List.append_nil ("\n\n".toList)).symm)
        (by decide) l1 l2 hl h1n h2n hpre)

/-- No delimiter occurrence in the preamble followed by the start of the
first header (or nothing). -/
theorem noDelim_doc (off : Int) (genTime : Str) (comments : List Comment)
    (username : Str) (subs : List Str)
    (hu : ¬ (("## r/".toList) <:+: username))
    (hg : ¬ (("## r/".toList) <:+: genTime)) :
    ¬ (("## r/".toList) <:+: preambleStr genTime comments username ++
      (sectionsText off comments subs).take 4) := by
  cases subs with
  | nil =>
    rw [show sectionsText off comments ([] : List Str) = [] from rfl]
    simp only [List.take_nil, List.append_nil]
    exact noDelim_preamble genTime comments username hu hg
  | cons s r =>
    rw [sectionsText_take4]
    refine not_infix_append
      (noDelim_preamble genTime comments username hu hg)
      (fun hc => by
        have := hc.length_le
        simp at this)
      (fun l1 l2 hl h1n h2n _ hpre =>
        straddle_right_lead ((List.append_nil ("## r".toList)).symm)
          (by decide) l1 l2 hl h1n h2n hpre)

theorem save_eq (off : Int) (genTime : Str) (comments : List Comment)
    (username : Str) :
    saveCommentsToMarkdown off genTime comments username =
      preambleStr genTime comments username ++
        sectionsText off comments (firstSeenSubs comments) := by
  simp [saveCommentsToMarkdown, preambleStr, sectionsText,
    List.append_assoc]

theorem sectionsText_len (off : Int) (comments : List Comment) :
    ∀ subs : List Str,
    subs.length ≤ (sectionsText off comments subs).length := by
  intro subs
  induction subs with
  | nil => simp [sectionsText]
  | cons s r ih =>
    have h1 : 1 ≤ (sectionText off comments s).length := by
      simp [sectionText, List.length_append]
    have hs : sectionsText off comments (s :: r) =
        sectionText off comments s ++ sectionsText off comments r := by
      rw [sectionsText, List.map_cons, List.flatten_cons]
      rfl
    rw [hs, List.length_append, List.length_cons]
    omega

theorem matchHeader_preamble (genTime : Str) (comments : List Comment)
    (username : Str) :
    matchHeader (preambleStr genTime comments username) = none := rfl

/-- Truncating to local midnight does not change the local calendar
date. -/
theorem localDate_localMidnight (off ts : Int) :
    localDate off (localMidnight off ts) = localDate off ts := by
  rw [localDate, localDate, localMidnight]
  have h1 : ((ts + off).ediv 86400 * 86400 - off + off) =
      (ts + off).ediv 86400 * 86400 := by ring
  rw [h1]
  rw [show ((ts + off).ediv 86400 * 86400).ediv 86400 =
      (ts + off).ediv 86400 from
    Int.mul_ediv_cancel _ (by norm_num : (86400 : Int) ≠ 0)]

/-- C2 (amended): writing any list of round-trippable comments (stripped
bodies free of the `\n---` terminator and the `## r/` delimiter,
word-character subreddits, `https://` permalinks with `)`-free tails,
dates with four-digit years; username and generation stamp free of the
delimiter) and re-parsing the file succeeds and returns the comments
grouped by subreddit in first-seen order — a permutation of the input,
not the input order — with `body`, `score`, `subreddit` and `permalink`
preserved exactly and `created_utc` truncated to local midnight, so the
local calendar date is preserved. -/
theorem C2_roundtrip_amended (off : Int) (genTime username : Str)
    (comments : List Comment)
    (hu : ¬ (("## r/".toList) <:+: username))
    (hg : ¬ (("## r/".toList) <:+: genTime))
    (hc : ∀ c ∈ comments, writableComment off c) :
    parseCommentsFile off
        (saveCommentsToMarkdown off genTime comments username) =
      .ok (((firstSeenSubs comments).map (fun sub =>
        (subGroup comments sub).map (dayNormalize off))).flatten) ∧
    (((firstSeenSubs comments).map (fun sub =>
      (subGroup comments sub).map (dayNormalize off))).flatten).Perm
        (comments.map (dayNormalize off)) ∧
    (∀ c : Comment, (dayNormalize off c).body = c.body ∧
      (dayNormalize off c).score = c.score ∧
      (dayNormalize off c).subreddit = c.subreddit ∧
      (dayNormalize off c).permalink = c.permalink ∧
      localDate off (dayNormalize off c).created_utc =
        localDate off c.created_utc) := by
  refine ⟨?_, ?_, ?_⟩
  · rw [parseCommentsFile, save_eq, reSplit]
    have hlen : (firstSeenSubs comments).length + 1 ≤
        (preambleStr genTime comments username ++
          sectionsText off comments (firstSeenSubs comments)).length + 1 := by
      rw [List.length_append]
      have := sectionsText_len off comments (firstSeenSubs comments)
      omega
    have hsubs : ∀ sub ∈ firstSeenSubs comments, sub ≠ [] ∧
        (∀ ch ∈ sub, isWordChar ch = true) ∧
        ¬ (("## r/".toList) <:+:
          tailStr off comments sub ++ ("## r".toList)) := by
      intro sub hsub
      obtain ⟨c0, hc0, he⟩ := firstSeenSubs_sound hsub
      obtain ⟨-, -, -, h4, h5, -, -, -, -, -, -, -⟩ := hc c0 hc0
      refine ⟨he ▸ h4, he ▸ h5, ?_⟩
      apply noDelim_tail
      intro c' hc'
      obtain ⟨-, -, h3, -, -, h6, -, -, h9, -, -, -⟩ :=
        hc c' (List.mem_of_mem_filter hc')
      exact ⟨h3, h6, h9⟩
    rw [reSplitGo_sections off comments (firstSeenSubs comments) _ _ hlen
      (noDelim_doc off genTime comments username _ hu hg) hsubs]
    simp only [processSections,
      matchHeader_preamble genTime comments username]
    rw [processSections_pieces off comments (firstSeenSubs comments) none
      ?_]
    intro sub hsub
    obtain ⟨c0, hc0, he⟩ := firstSeenSubs_sound hsub
    obtain ⟨-, -, -, h4, h5, -, -, -, -, -, -, -⟩ := hc c0 hc0
    exact ⟨he ▸ h4, he ▸ h5,
      fun c' hc' => hc c' (List.mem_of_mem_filter hc')⟩
  · have hmm : ((firstSeenSubs comments).map (fun sub =>
        (subGroup comments sub).map (dayNormalize off))).flatten =
        (((firstSeenSubs comments).map (fun sub =>
          comments.filter (fun c => c.subreddit == sub))).flatten).map
            (dayNormalize off) := by
      rw [List.map_flatten, List.map_map]
      rfl
    rw [hmm]
    exact (grouped_perm comments).map (dayNormalize off)
  · intro c
    exact ⟨rfl, rfl, rfl, rfl, localDate_localMidnight off c.created_utc⟩

/-- Concrete comments exercising the amended round trip: two subreddits
interleaved (so the parse order differs from the input order), a negative
score, and distinct timestamps. -/
def c2wComments : List Comment :=
  [ { body := "hello world".toList, score := 5,
      subreddit := "rust".toList, created_utc := 1699999999,
      permalink := "https://reddit.com/a".toList },
    { body := "snake".toList, score := -3,
      subreddit := "python".toList, created_utc := 1700000000,
      permalink := "https://reddit.com/b".toList },
    { body := "crab".toList, score := 0,
      subreddit := "rust".toList, created_utc := 1700001234,
      permalink := "https://reddit.com/c".toList } ]

theorem C2_roundtrip_amended_witness :
    parseCommentsFile 0 (saveCommentsToMarkdown 0
        ("2025-01-01 00:00:00".toList) c2wComments ("alice".toList)) =
      .ok (((firstSeenSubs c2wComments).map (fun sub =>
        (subGroup c2wComments sub).map (dayNormalize 0))).flatten) ∧
    (((firstSeenSubs c2wComments).map (fun sub =>
      (subGroup c2wComments sub).map (dayNormalize 0))).flatten).Perm
        (c2wComments.map (dayNormalize 0)) ∧
    (∀ c : Comment, (dayNormalize 0 c).body = c.body ∧
      (dayNormalize 0 c).score = c.score ∧
      (dayNormalize 0 c).subreddit = c.subreddit ∧
      (dayNormalize 0 c).permalink = c.permalink ∧
      localDate 0 (dayNormalize 0 c).created_utc =
        localDate 0 c.created_utc) :=
  C2_roundtrip_amended 0 ("2025-01-01 00:00:00".toList) ("alice".toList)
    c2wComments (by decide) (by decide) (by decide)

end Personna
